import Mathlib

/-!
Verification model of the NimbusRT path-storage/aggregation engine
(`Nimbus/PathStorage.cpp`) and the point-cloud environment initialization
(`Nimbus/PointCloudEnvironment.cpp`).

Machine floats (`double`, `float`, `glm::vec3`) are modelled by `ℚ` and a
record of three rationals; `uint32_t` label/material values are `ℕ` with the
all-bits-set sentinel `4294967295`.  The GLM functions `normalize`, `acos`
and `atan2`, which live outside the repository, are passed as parameters to
the dense exporter so every theorem holds for an arbitrary choice of them.
-/

/-- A 3-component vector (models `glm::vec3`). -/
structure Vec3 where
  x : ℚ
  y : ℚ
  z : ℚ
deriving DecidableEq

instance : Sub Vec3 := ⟨fun a b => ⟨a.x - b.x, a.y - b.y, a.z - b.z⟩⟩
instance : Neg Vec3 := ⟨fun a => ⟨-a.x, -a.y, -a.z⟩⟩

/-- Zero vector, the value pushed for padding interaction slots. -/
def v3zero : Vec3 := ⟨0, 0, 0⟩

/-- The path type enumeration of `Nimbus::PathType`. -/
inductive PathType where
  | LineOfSight
  | Specular
  | Diffraction
  | Scattering
  | RIS
deriving DecidableEq

/-- `PathStorage::GetSionnaPathType`, as the numeric index of the four output
classes (Specular = 0, Diffracted = 1, Scattered = 2, RIS = 3):
LineOfSight and Specular both map to Specular. -/
def sionnaTypeIndex : PathType → ℕ
  | .LineOfSight => 0
  | .Specular => 0
  | .Diffraction => 1
  | .Scattering => 2
  | .RIS => 3

/-- `Nimbus::PathInfo`: per-candidate scalar data. -/
structure PathInfo where
  txID : ℕ
  rxID : ℕ
  pathType : PathType
  numInteractions : ℕ
  timeDelay : ℚ
deriving DecidableEq

/-- One candidate path of an `AddPaths` batch: its `PathInfo` plus its slice
(of stride `maxNumInteractions`) of the flattened interaction attribute
arrays. -/
structure Candidate where
  info : PathInfo
  interactions : List Vec3
  normals : List Vec3
  labels : List ℕ
  materials : List ℕ
deriving DecidableEq

/-- Modelled from the spec: the hash helpers `CalculateHash` / `CombineHash`
used by `PathStorage::GetPathHash` live in a header that is not part of the
sources; the spec describes the identity key as a non-reversible digest that
combines transmitter ID, receiver ID and path type into a seed and then folds
in each interaction label in path order, with collisions an accepted risk.
The two digest functions are therefore model parameters. -/
structure HashModel where
  calculateHash : ℕ → ℕ → PathType → ℕ
  combineHash : ℕ → ℕ → ℕ

/-- `PathStorage::GetPathHash`: seed from (txID, rxID, pathType), then fold in
the first `numInteractions` labels in order. -/
def getPathHash (hm : HashModel) (info : PathInfo) (labels : List ℕ) : ℕ :=
  (List.range info.numInteractions).foldl
    (fun h i => hm.combineHash h (labels.getD i 0))
    (hm.calculateHash info.txID info.rxID info.pathType)

/-- The identity key of one candidate. -/
def keyOf (hm : HashModel) (c : Candidate) : ℕ :=
  getPathHash hm c.info c.labels

/-- The all-bits-set `uint32_t` sentinel `~0u` marking unused interaction
slots. -/
def sentinel : ℕ := 4294967295

/-- `Constants::LightSpeedInVacuum` (m/s). -/
def lightSpeed : ℚ := 299792458

/-- Value of a `uint32_t` pre-decrement `--c`: wraps around at zero. -/
def decWrap (c : ℕ) : ℕ := if c = 0 then 4294967295 else c - 1

/-- Pointwise update of a total function, modelling a store to `f[i]`. -/
def upd {α : Type} (f : ℕ → α) (i : ℕ) (v : α) : ℕ → α :=
  fun j => if j = i then v else f j

/-- Pointwise update of a doubly indexed total function. -/
def upd2 (f : ℕ → ℕ → ℕ) (i j v : ℕ) : ℕ → ℕ → ℕ :=
  fun a b => if a = i ∧ b = j then v else f a b

/-- The flat index `rxID * txCount + txID` used for the per-link path-count
table (`m_PathCounts`) in both `AddPaths` and `ToSionnaPathData`. -/
def linkIndex (txCount rxID txID : ℕ) : ℕ := rxID * txCount + txID

/-- The number of entries the `PathStorage` constructor allocates for the
per-link path-count table: `txCount + rxCount`. -/
def pathCountsSize (txCount rxCount : ℕ) : ℕ := txCount + rxCount

/-- The per-interaction-slot attribute arrays (`PathStorage::InteractionData`):
one growable column per attribute, slot `k` belonging to retained path `k`. -/
structure SlotData where
  interactions : List Vec3
  normals : List Vec3
  labels : List ℕ
  materials : List ℕ
deriving DecidableEq

/-- Append one path's attributes for a fixed interaction slot. -/
def SlotData.push (d : SlotData) (p n : Vec3) (la ma : ℕ) : SlotData :=
  ⟨d.interactions ++ [p], d.normals ++ [n], d.labels ++ [la], d.materials ++ [ma]⟩

/-- Overwrite the attributes of retained path `i` for a fixed interaction
slot. -/
def SlotData.setAt (d : SlotData) (i : ℕ) (p n : Vec3) (la ma : ℕ) : SlotData :=
  ⟨d.interactions.set i p, d.normals.set i n, d.labels.set i la, d.materials.set i ma⟩

/-- One entry of the deduplication map `m_PathMap`: current best time delay
and the stable insertion-order index. -/
structure PathEntry where
  timeDelay : ℚ
  pathIndex : ℕ
deriving DecidableEq

/-- Lookup in the hash-keyed association list modelling
`std::unordered_map<PathHashKey, …>`. -/
def mapFind (m : List (ℕ × PathEntry)) (k : ℕ) : Option PathEntry :=
  (m.find? (fun p => decide (p.1 = k))).map Prod.snd

/-- In-place update of the time delay stored under key `k` (the iterator
write `it->second.timeDelay = …`). -/
def mapUpdate (m : List (ℕ × PathEntry)) (k : ℕ) (d : ℚ) : List (ℕ × PathEntry) :=
  m.map (fun p => if p.1 = k then (p.1, ⟨d, p.2.pathIndex⟩) else p)

/-- The state of a `Nimbus::PathStorage` object.  Growable `std::vector`
members are lists; the fixed-size per-link count table and the
per-interaction-slot vector are total functions read only below their
respective allocation bounds (the bound itself is studied separately, see
`pathCountsSize`). -/
structure Store where
  maxNumIa : ℕ
  transmitters : List Vec3
  receivers : List Vec3
  interactionData : ℕ → SlotData
  pathCounts : ℕ → ℕ → ℕ
  maxLinkPaths : ℕ → ℕ
  pathMap : List (ℕ × PathEntry)
  timeDelays : List ℚ
  txIDs : List ℕ
  rxIDs : List ℕ
  pathTypes : List PathType
  numInteractions : List ℕ

/-- The `PathStorage` constructor. -/
def mkStore (maxNumIa : ℕ) (txs rxs : List Vec3) : Store where
  maxNumIa := maxNumIa
  transmitters := txs
  receivers := rxs
  interactionData := fun _ => ⟨[], [], [], []⟩
  pathCounts := fun _ _ => 0
  maxLinkPaths := fun _ => 0
  pathMap := []
  timeDelays := []
  txIDs := []
  rxIDs := []
  pathTypes := []
  numInteractions := []

/-- The `emplaced` branch of `AddPaths`: a new identity key is assigned the
next insertion-order index, its attributes are appended to every interaction
slot (sentinel-padded beyond its interaction count), its scalars are
appended, and the per-link counter and global max for its output class are
bumped. -/
def insertPath (hm : HashModel) (s : Store) (c : Candidate) : Store :=
  let k := keyOf hm c
  let n := c.info.numInteractions
  let tIdx := sionnaTypeIndex c.info.pathType
  let link := linkIndex s.transmitters.length c.info.rxID c.info.txID
  let newCount := s.pathCounts link tIdx + 1
  { s with
    pathMap := s.pathMap ++ [(k, ⟨c.info.timeDelay, s.pathMap.length⟩)]
    interactionData := fun ia =>
      if ia < s.maxNumIa then
        if ia < n then
          (s.interactionData ia).push (c.interactions.getD ia v3zero)
            (c.normals.getD ia v3zero) (c.labels.getD ia 0) (c.materials.getD ia 0)
        else
          (s.interactionData ia).push v3zero v3zero sentinel sentinel
      else s.interactionData ia
    pathCounts := upd2 s.pathCounts link tIdx newCount
    maxLinkPaths := upd s.maxLinkPaths tIdx (max (s.maxLinkPaths tIdx) newCount)
    timeDelays := s.timeDelays ++ [c.info.timeDelay]
    txIDs := s.txIDs ++ [c.info.txID]
    rxIDs := s.rxIDs ++ [c.info.rxID]
    pathTypes := s.pathTypes ++ [c.info.pathType]
    numInteractions := s.numInteractions ++ [c.info.numInteractions] }

/-- The lower-time-delay branch of `AddPaths`: the stored delay is lowered,
the first `numInteractions` interaction slots are overwritten in place at the
existing slot index, and the per-path delay and interaction count are
overwritten.  Slots at or beyond the new count are left untouched. -/
def overwritePath (hm : HashModel) (s : Store) (c : Candidate) (e : PathEntry) : Store :=
  let k := keyOf hm c
  let n := c.info.numInteractions
  { s with
    pathMap := mapUpdate s.pathMap k c.info.timeDelay
    interactionData := fun ia =>
      if ia < n then
        (s.interactionData ia).setAt e.pathIndex (c.interactions.getD ia v3zero)
          (c.normals.getD ia v3zero) (c.labels.getD ia 0) (c.materials.getD ia 0)
      else s.interactionData ia
    timeDelays := s.timeDelays.set e.pathIndex c.info.timeDelay
    numInteractions := s.numInteractions.set e.pathIndex c.info.numInteractions }

/-- Processing of a single candidate inside `PathStorage::AddPaths`:
`try_emplace` on the identity key, then either the insertion branch, the
strictly-lower-time-delay overwrite branch, or no effect. -/
def addPath (hm : HashModel) (s : Store) (c : Candidate) : Store :=
  match mapFind s.pathMap (keyOf hm c) with
  | none => insertPath hm s c
  | some e => if e.timeDelay > c.info.timeDelay then overwritePath hm s c e else s

/-- `PathStorage::AddPaths`: sequential processing of a batch of candidates. -/
def addPaths (hm : HashModel) (s : Store) (cs : List Candidate) : Store :=
  cs.foldl (addPath hm) s

/-- The compact export record `PathStorage::PathData`. -/
structure PathData where
  maxNumIa : ℕ
  maxLinkPaths : ℕ
  transmitters : List Vec3
  receivers : List Vec3
  interactions : List Vec3
  normals : List Vec3
  labels : List ℕ
  materials : List ℕ
  timeDelays : List ℚ
  txIDs : List ℕ
  rxIDs : List ℕ
  pathTypes : List PathType
  numInteractions : List ℕ

/-- `PathStorage::ToPathData`: concatenates the per-interaction-slot arrays
slot-major into flat buffers and copies the scalar arrays through; it writes
no member of the store, which the returned second component records. -/
def toPathData (s : Store) : PathData × Store :=
  (⟨s.maxNumIa, 0, s.transmitters, s.receivers,
    (List.range s.maxNumIa).flatMap (fun i => (s.interactionData i).interactions),
    (List.range s.maxNumIa).flatMap (fun i => (s.interactionData i).normals),
    (List.range s.maxNumIa).flatMap (fun i => (s.interactionData i).labels),
    (List.range s.maxNumIa).flatMap (fun i => (s.interactionData i).materials),
    s.timeDelays, s.txIDs, s.rxIDs, s.pathTypes, s.numInteractions⟩, s)

/-- The dense per-class output arrays of `PathStorage::SionnaPathData`, each a
flat buffer addressed by the fixed-stride indexing of `ToSionnaPathData`.
Modelled from the spec: `ReservePaths` (declared in the missing header)
allocates them with mask 0, time delays and distances -1, and zeroed
vectors, matching the allocation defaults retained in the source as
commented-out resize calls. -/
structure SClass where
  interactions : ℕ → Vec3
  normals : ℕ → Vec3
  incidentRays : ℕ → Vec3
  deflectedRays : ℕ → Vec3
  materials : ℕ → ℕ
  timeDelays : ℕ → ℚ
  totalDistance : ℕ → ℚ
  mask : ℕ → ℕ
  kTx : ℕ → Vec3
  kRx : ℕ → Vec3
  aodElevation : ℕ → ℚ
  aodAzimuth : ℕ → ℚ
  aoaElevation : ℕ → ℚ
  aoaAzimuth : ℕ → ℚ

/-- Allocation defaults of one class bundle. -/
def initClass : SClass where
  interactions := fun _ => v3zero
  normals := fun _ => v3zero
  incidentRays := fun _ => v3zero
  deflectedRays := fun _ => v3zero
  materials := fun _ => 0
  timeDelays := fun _ => -1
  totalDistance := fun _ => -1
  mask := fun _ => 0
  kTx := fun _ => v3zero
  kRx := fun _ => v3zero
  aodElevation := fun _ => 0
  aodAzimuth := fun _ => 0
  aoaElevation := fun _ => 0
  aoaAzimuth := fun _ => 0

/-- `PathStorage::SionnaPathData`. -/
structure SionnaPathData where
  transmitters : List Vec3
  receivers : List Vec3
  maxNumIa : ℕ
  maxLinkPaths : ℕ → ℕ
  paths : ℕ → SClass

/-- The read-only context of one `ToSionnaPathData` run: array dimensions,
the per-class stride bound, and the external numeric functions
(`glm::normalize`, `glm::acos`, `glm::atan`). -/
structure ExpCtx where
  T : ℕ
  R : ℕ
  maxIa : ℕ
  MLP : ℕ → ℕ
  nf : Vec3 → Vec3
  facos : ℚ → ℚ
  fatan2 : ℚ → ℚ → ℚ

/-- Mutable state threaded through the export loop: the dense output and the
destructively decremented per-link counter table. -/
structure ExpState where
  paths : ℕ → SClass
  counters : ℕ → ℕ → ℕ

/-- Everything `ToSionnaPathData` reads about one retained path `i`:
its output class index, endpoint IDs and positions, interaction count, time
delay, and its row of every per-interaction-slot array. -/
structure SRec where
  t : ℕ
  txID : ℕ
  rxID : ℕ
  tx : Vec3
  rx : Vec3
  n : ℕ
  delay : ℚ
  pts : ℕ → Vec3
  nrm : ℕ → Vec3
  mat : ℕ → ℕ

/-- Read the record of retained path `i` off the store. -/
def recordAt (s : Store) (i : ℕ) : SRec where
  t := sionnaTypeIndex (s.pathTypes.getD i .LineOfSight)
  txID := s.txIDs.getD i 0
  rxID := s.rxIDs.getD i 0
  tx := s.transmitters.getD (s.txIDs.getD i 0) v3zero
  rx := s.receivers.getD (s.rxIDs.getD i 0) v3zero
  n := s.numInteractions.getD i 0
  delay := s.timeDelays.getD i 0
  pts := fun ia => (s.interactionData ia).interactions.getD i v3zero
  nrm := fun ia => (s.interactionData ia).normals.getD i v3zero
  mat := fun ia => (s.interactionData ia).materials.getD i 0

/-- The retained paths in insertion order. -/
def records (s : Store) : List SRec :=
  (List.range s.txIDs.length).map (recordAt s)

/-- The flat index `iaOffset + rxOffset + txOffset + pathOffset` of an
interaction-indexed write. -/
def iaIdxOf (ctx : ExpCtx) (r : SRec) (off ia : ℕ) : ℕ :=
  ia * ctx.R * ctx.T * ctx.MLP r.t + r.rxID * ctx.T * ctx.MLP r.t + r.txID * ctx.MLP r.t + off

/-- The flat index `txOffset + rxOffset + pathOffset` of a per-path write. -/
def pdiOf (ctx : ExpCtx) (r : SRec) (off : ℕ) : ℕ :=
  r.txID * ctx.MLP r.t + r.rxID * ctx.T * ctx.MLP r.t + off

/-- Departure unit vector: first interaction point minus transmitter if any
interactions exist, else receiver minus transmitter. -/
def kTxOf (ctx : ExpCtx) (r : SRec) : Vec3 :=
  if 0 < r.n then ctx.nf (r.pts 0 - r.tx) else ctx.nf (r.rx - r.tx)

/-- Arrival unit vector: last interaction point minus receiver if any
interactions exist, else transmitter minus receiver. -/
def kRxOf (ctx : ExpCtx) (r : SRec) : Vec3 :=
  if 0 < r.n then ctx.nf (r.pts (r.n - 1) - r.rx) else ctx.nf (r.tx - r.rx)

/-- The pre-decrement link-local slot offset of the path about to be
exported. -/
def offOf (ctx : ExpCtx) (st : ExpState) (r : SRec) : ℕ :=
  decWrap (st.counters (linkIndex ctx.T r.rxID r.txID) r.t)

/-- Body of the inner interaction loop of `ToSionnaPathData` for slot `ia`:
interaction point, normal, material, incident and deflected ray
directions. -/
def iaStep (ctx : ExpCtx) (r : SRec) (off : ℕ) (cd : SClass) (ia : ℕ) : SClass :=
  let idx := iaIdxOf ctx r off ia
  let p := r.pts ia
  { cd with
    interactions := upd cd.interactions idx p
    normals := upd cd.normals idx (r.nrm ia)
    materials := upd cd.materials idx (r.mat ia)
    incidentRays := upd cd.incidentRays idx
      (if 0 < ia then ctx.nf (p - r.pts (ia - 1)) else ctx.nf (p - r.tx))
    deflectedRays := upd cd.deflectedRays idx
      (if (ia : ℤ) < (r.n : ℤ) - 1 then ctx.nf (r.pts (ia + 1) - p) else ctx.nf (r.rx - p)) }

/-- All writes of one iteration of the outer path loop of `ToSionnaPathData`
into the class bundle of the current path's output class. -/
def stepClass (ctx : ExpCtx) (st : ExpState) (r : SRec) : SClass :=
  let off := offOf ctx st r
  let pdi := pdiOf ctx r off
  let cd1 := (List.range ctx.maxIa).foldl (iaStep ctx r off) (st.paths r.t)
  let cd2 := { cd1 with
    timeDelays := upd cd1.timeDelays pdi r.delay
    totalDistance := upd cd1.totalDistance pdi (r.delay * lightSpeed)
    mask := upd cd1.mask pdi 1
    kTx := upd cd1.kTx pdi (kTxOf ctx r)
    kRx := upd cd1.kRx pdi (kRxOf ctx r) }
  let cd3 := { cd2 with
    incidentRays := upd cd2.incidentRays (iaIdxOf ctx r off r.n) (-(cd2.kRx pdi)) }
  { cd3 with
    aodElevation := upd cd3.aodElevation pdi (ctx.facos (cd3.kTx pdi).z)
    aodAzimuth := upd cd3.aodAzimuth pdi (ctx.fatan2 (cd3.kTx pdi).y (cd3.kTx pdi).x)
    aoaElevation := upd cd3.aoaElevation pdi (ctx.facos (cd3.kRx pdi).z)
    aoaAzimuth := upd cd3.aoaAzimuth pdi (ctx.fatan2 (cd3.kRx pdi).y (cd3.kRx pdi).x) }

/-- One iteration of the outer path loop: decrement the path's per-link
counter (pre-decrement value is its slot offset) and scatter its data into
its class bundle. -/
def sStep (ctx : ExpCtx) (st : ExpState) (r : SRec) : ExpState where
  paths := upd st.paths r.t (stepClass ctx st r)
  counters := upd2 st.counters (linkIndex ctx.T r.rxID r.txID) r.t (offOf ctx st r)

/-- `PathStorage::ToSionnaPathData`, parametric in the external numeric
functions.  It consumes the per-link counters destructively; the returned
second component is the store with the decremented counter table. -/
def toSionnaPathData (nf : Vec3 → Vec3) (facos : ℚ → ℚ) (fatan2 : ℚ → ℚ → ℚ)
    (s : Store) : SionnaPathData × Store :=
  let ctx : ExpCtx :=
    ⟨s.transmitters.length, s.receivers.length, s.maxNumIa, s.maxLinkPaths, nf, facos, fatan2⟩
  let st := (records s).foldl (sStep ctx) ⟨fun _ => initClass, s.pathCounts⟩
  (⟨s.transmitters, s.receivers, s.maxNumIa, s.maxLinkPaths, st.paths⟩,
   { s with pathCounts := st.counters })

/-- Number of yet-to-be-exported records with output class `t` on link
`(rx, tx)`. -/
def remCount (l : List SRec) (t rx tx : ℕ) : ℕ :=
  l.countP (fun r => decide (r.t = t ∧ r.rxID = rx ∧ r.txID = tx))

/-- The number of retained paths with output class `t`, transmitter `tx` and
receiver `rx`. -/
def retainedLinkCount (s : Store) (t tx rx : ℕ) : ℕ :=
  (List.range s.txIDs.length).countP (fun i =>
    decide (sionnaTypeIndex (s.pathTypes.getD i .LineOfSight) = t ∧
      s.rxIDs.getD i 0 = rx ∧ s.txIDs.getD i 0 = tx))

/-- The link-local slot offset `ToSionnaPathData` assigns to retained path
`i`: the number of later retained paths sharing its class and link. -/
def exportSlot (s : Store) (i : ℕ) : ℕ :=
  remCount ((records s).drop (i + 1)) (recordAt s i).t (recordAt s i).rxID (recordAt s i).txID

/-! ## Point-cloud environment initialization -/

/-- One input point of `PointCloudEnvironment::Init`. -/
structure PointData where
  position : Vec3
  normal : Vec3
  label : ℕ
  material : ℕ

/-- Axis-aligned bounding box. -/
structure Aabb where
  min : Vec3
  max : Vec3

/-- Componentwise minimum (models `glm::min`). -/
def vmin (a b : Vec3) : Vec3 := ⟨min a.x b.x, min a.y b.y, min a.z b.z⟩

/-- Componentwise maximum (models `glm::max`). -/
def vmax (a b : Vec3) : Vec3 := ⟨max a.x b.x, max a.y b.y, max a.z b.z⟩

/-- The AABB side effect of `PointCloudEnvironment::LoadPoints`: min/max over
all point positions, then widened by the constant bias `0.01` on every
component. -/
def loadPointsAabb (points : List PointData) : Aabb :=
  let p0 := (points.headD ⟨v3zero, v3zero, 0, 0⟩).position
  let ab := points.foldl
    (fun ab p => ⟨vmin ab.min p.position, vmax ab.max p.position⟩)
    (⟨p0, p0⟩ : Aabb)
  ⟨⟨ab.min.x - 1/100, ab.min.y - 1/100, ab.min.z - 1/100⟩,
   ⟨ab.max.x + 1/100, ab.max.y + 1/100, ab.max.z + 1/100⟩⟩

/-- One component of `glm::uvec3(glm::ceil((max - min) / voxelSize))`. -/
def voxelDim (lo hi vs : ℚ) : ℕ := (⌈(hi - lo) / vs⌉).toNat

/-- The voxel dimensions computed by
`PointCloudEnvironment::ComputeVoxelWorld`. -/
def voxelDims (ab : Aabb) (vs : ℚ) : ℕ × ℕ × ℕ :=
  (voxelDim ab.min.x ab.max.x vs, voxelDim ab.min.y ab.max.y vs, voxelDim ab.min.z ab.max.z vs)

/-- The boolean result of `ComputeVoxelWorld`: all three voxel dimensions
and the voxel size must be positive. -/
def computeVoxelWorldOk (ab : Aabb) (vs : ℚ) : Bool :=
  let d := voxelDims ab vs
  decide (0 < d.1) && decide (0 < d.2.1) && decide (0 < d.2.2) && decide (0 < vs)

/-- The control-flow outcome of `PointCloudEnvironment::Init`. -/
inductive InitResult where
  | tooFewPoints
  | voxelWorldFailed
  | rayTracing (ok : Bool)
deriving DecidableEq

/-- `PointCloudEnvironment::Init`: rejects inputs with at most one point,
then loads points (computing the AABB), then checks the voxel world; only
when that succeeds does it reach `GenerateRayTracingData`, whose
GPU-dependent success is the parameter `genRT`. -/
def pointCloudInit (genRT : Bool) (points : List PointData) (vs : ℚ) : InitResult :=
  if points.length ≤ 1 then .tooFewPoints
  else if computeVoxelWorldOk (loadPointsAabb points) vs then .rayTracing genRT
  else .voxelWorldFailed

/-- The boolean `Init` returns for each outcome. -/
def initReturns : InitResult → Bool
  | .tooFewPoints => false
  | .voxelWorldFailed => false
  | .rayTracing ok => ok

/-! ## Basic lemmas about the modelling primitives -/

theorem upd_same {α : Type} (f : ℕ → α) (i : ℕ) (v : α) : upd f i v i = v := by
  simp [upd]

theorem upd_ne {α : Type} (f : ℕ → α) (i : ℕ) (v : α) {j : ℕ} (h : j ≠ i) :
    upd f i v j = f j := by
  simp [upd, h]

theorem upd2_same (f : ℕ → ℕ → ℕ) (i j v : ℕ) : upd2 f i j v i j = v := by
  simp [upd2]

theorem upd2_ne (f : ℕ → ℕ → ℕ) (i j v : ℕ) {a b : ℕ} (h : ¬(a = i ∧ b = j)) :
    upd2 f i j v a b = f a b := by
  simp only [upd2, if_neg h]

theorem decWrap_succ (n : ℕ) : decWrap (n + 1) = n := by
  simp [decWrap]

theorem getD_append_left {α : Type} (l₁ l₂ : List α) (d : α) {i : ℕ} (h : i < l₁.length) :
    (l₁ ++ l₂).getD i d = l₁.getD i d := by
  simp [List.getD, List.getElem?_append_left h]

theorem getD_append_len {α : Type} (l : List α) (a d : α) :
    (l ++ [a]).getD l.length d = a := by
  simp [List.getD]

theorem getD_set_ne {α : Type} (l : List α) (v d : α) {i j : ℕ} (h : i ≠ j) :
    (l.set i v).getD j d = l.getD j d := by
  simp [List.getD, List.getElem?_set_ne h]

theorem getD_set_self {α : Type} (l : List α) (v d : α) {i : ℕ} (h : i < l.length) :
    (l.set i v).getD i d = v := by
  simp [List.getD, List.getElem?_set_self, h]

theorem getD_eq_get {α : Type} (l : List α) (d : α) {i : ℕ} (h : i < l.length) :
    l.getD i d = l.get ⟨i, h⟩ := by
  simp [List.getD, List.getElem?_eq_getElem h]

/-! ## Association-list lemmas for the deduplication map -/

theorem mapFind_nil (k : ℕ) : mapFind [] k = none := rfl

theorem mapFind_cons (k₀ : ℕ) (e₀ : PathEntry) (m : List (ℕ × PathEntry)) (k : ℕ) :
    mapFind ((k₀, e₀) :: m) k = if k₀ = k then some e₀ else mapFind m k := by
  by_cases h : k₀ = k <;> simp [mapFind, List.find?, h]

theorem mapFind_append (m₁ m₂ : List (ℕ × PathEntry)) (k : ℕ) :
    mapFind (m₁ ++ m₂) k = (mapFind m₁ k).or (mapFind m₂ k) := by
  simp only [mapFind, List.find?_append]
  cases m₁.find? (fun p => decide (p.1 = k)) <;> rfl

theorem mapFind_single (k₀ : ℕ) (e₀ : PathEntry) (k : ℕ) :
    mapFind [(k₀, e₀)] k = if k₀ = k then some e₀ else none := by
  rw [mapFind_cons, mapFind_nil]

theorem mapFind_eq_none_iff (m : List (ℕ × PathEntry)) (k : ℕ) :
    mapFind m k = none ↔ k ∉ m.map Prod.fst := by
  simp only [mapFind, Option.map_eq_none', List.find?_eq_none, List.mem_map]
  constructor
  · rintro h ⟨p, hp, rfl⟩
    exact (by simpa using h p hp)
  · intro h p hp
    simp only [decide_eq_true_eq]
    exact fun hk => h ⟨p, hp, hk⟩

theorem mapFind_isSome_iff (m : List (ℕ × PathEntry)) (k : ℕ) :
    (∃ e, mapFind m k = some e) ↔ k ∈ m.map Prod.fst := by
  rw [← not_iff_not, ← mapFind_eq_none_iff]
  cases h : mapFind m k <;> simp [h]

theorem mapFind_mem {m : List (ℕ × PathEntry)} {k : ℕ} {e : PathEntry}
    (h : mapFind m k = some e) : (k, e) ∈ m := by
  simp only [mapFind, Option.map_eq_some'] at h
  obtain ⟨p, hp, rfl⟩ := h
  have hk : p.1 = k := by simpa using List.find?_some hp
  have hm := List.mem_of_find?_eq_some hp
  cases p
  cases hk
  exact hm

theorem mapUpdate_length (m : List (ℕ × PathEntry)) (k : ℕ) (d : ℚ) :
    (mapUpdate m k d).length = m.length := by
  simp [mapUpdate]

theorem mapUpdate_map_fst (m : List (ℕ × PathEntry)) (k : ℕ) (d : ℚ) :
    (mapUpdate m k d).map Prod.fst = m.map Prod.fst := by
  induction m with
  | nil => rfl
  | cons p t ih =>
    by_cases h : p.1 = k <;> simp [mapUpdate, h] <;> simpa [mapUpdate] using ih

theorem mapFind_mapUpdate_self (m : List (ℕ × PathEntry)) (k : ℕ) (d : ℚ) :
    mapFind (mapUpdate m k d) k = (mapFind m k).map (fun e => ⟨d, e.pathIndex⟩) := by
  induction m with
  | nil => rfl
  | cons p t ih =>
    obtain ⟨k₀, e₀⟩ := p
    by_cases h : k₀ = k
    · subst h
      simp [mapUpdate, mapFind_cons]
    · simpa [mapUpdate, mapFind_cons, h] using ih

theorem mapUpdate_cons (p : ℕ × PathEntry) (t : List (ℕ × PathEntry)) (k : ℕ) (d : ℚ) :
    mapUpdate (p :: t) k d =
      (if p.1 = k then (p.1, ⟨d, p.2.pathIndex⟩) else p) :: mapUpdate t k d :=
  rfl

theorem mapFind_mapUpdate_ne (m : List (ℕ × PathEntry)) (k : ℕ) (d : ℚ) {k' : ℕ}
    (h : k' ≠ k) : mapFind (mapUpdate m k d) k' = mapFind m k' := by
  induction m with
  | nil => rfl
  | cons p t ih =>
    obtain ⟨k₀, e₀⟩ := p
    rw [mapUpdate_cons]
    by_cases hk : k₀ = k
    · subst hk
      have hne : k₀ ≠ k' := fun hc => h hc.symm
      rw [if_pos rfl, mapFind_cons, mapFind_cons, ih]
      simp [hne]
    · simp only [if_neg hk]
      rw [mapFind_cons, mapFind_cons, ih]

theorem mapUpdate_get (m : List (ℕ × PathEntry)) (k : ℕ) (d : ℚ) (i : ℕ)
    (h : i < m.length) :
    (mapUpdate m k d).get ⟨i, by simpa [mapUpdate_length] using h⟩ =
      (if (m.get ⟨i, h⟩).1 = k then ((m.get ⟨i, h⟩).1, ⟨d, (m.get ⟨i, h⟩).2.pathIndex⟩)
       else m.get ⟨i, h⟩) := by
  simp [mapUpdate]

/-! ## Branch lemmas for `addPath` -/

theorem addPath_eq_insert (hm : HashModel) (s : Store) (c : Candidate)
    (h : mapFind s.pathMap (keyOf hm c) = none) :
    addPath hm s c = insertPath hm s c := by
  simp [addPath, h]

theorem addPath_eq_overwrite (hm : HashModel) (s : Store) (c : Candidate) (e : PathEntry)
    (h : mapFind s.pathMap (keyOf hm c) = some e) (hlt : c.info.timeDelay < e.timeDelay) :
    addPath hm s c = overwritePath hm s c e := by
  simp [addPath, h, hlt]

theorem addPath_eq_discard (hm : HashModel) (s : Store) (c : Candidate) (e : PathEntry)
    (h : mapFind s.pathMap (keyOf hm c) = some e) (hlt : ¬ c.info.timeDelay < e.timeDelay) :
    addPath hm s c = s := by
  simp [addPath, h]
  intro hgt
  exact absurd hgt hlt

theorem addPaths_append (hm : HashModel) (s : Store) (cs₁ cs₂ : List Candidate) :
    addPaths hm s (cs₁ ++ cs₂) = addPaths hm (addPaths hm s cs₁) cs₂ := by
  simp [addPaths, List.foldl_append]

theorem foldl_addPaths_flatten (hm : HashModel) (s : Store) (batches : List (List Candidate)) :
    batches.foldl (addPaths hm) s = addPaths hm s batches.flatten := by
  induction batches generalizing s with
  | nil => rfl
  | cons b bs ih =>
    simp only [List.foldl_cons, List.flatten_cons, addPaths_append]
    exact ih (addPaths hm s b)

/-! ## Claim C10: the compact exporter's `maxLinkPaths` field -/

/-- C10: for every store state, the `maxLinkPaths` field of the `PathData`
record returned by `ToPathData` is `0`, regardless of the per-link counts
(`data.maxLinkPaths = 0u` at PathStorage.cpp:88). -/
theorem toPathData_maxLinkPaths_zero (s : Store) : (toPathData s).1.maxLinkPaths = 0 :=
  rfl

/-! ## Claim C8: `ToPathData` is read-only and idempotent -/

/-- C8: `ToPathData` leaves the store — in particular the per-link path
counter table later consumed by `ToSionnaPathData` — unchanged, and two
successive calls return equal outputs. -/
theorem toPathData_readonly_idempotent (s : Store) :
    (toPathData s).2 = s ∧ (toPathData s).2.pathCounts = s.pathCounts ∧
      (toPathData ((toPathData s).2)).1 = (toPathData s).1 :=
  ⟨rfl, rfl, rfl⟩

/-! ## Claim C2: the per-link count table allocation bound -/

/-- C2 counterexample: with 2 transmitters and 3 receivers, the candidate
`txID = 1 < 2`, `rxID = 2 < 3` is addressed at flat index
`rxID * txCount + txID = 5`, which is not below the allocated size
`txCount + rxCount = 5`: the `transmitters + receivers` allocation is *not*
an over-allocation covering every in-range index. -/
theorem pathCounts_alloc_counterexample :
    1 < 2 ∧ 2 < 3 ∧ ¬ linkIndex 2 2 1 < pathCountsSize 2 3 := by
  decide

/-- C2 (amended): for transmitter count `T ≥ 1` and receiver count `R ≥ 1`,
the `T + R`-entry table covers every accessed index `rxID * T + txID`
(with `txID < T`, `rxID < R`) exactly when `(T-1) * (R-1) ≤ 1`, i.e. when
`T = 1`, `R = 1`, or `T = R = 2`; otherwise the maximal accessed index
`T * R - 1` reaches or exceeds the allocation. -/
theorem pathCounts_alloc_iff (T R : ℕ) (hT : 1 ≤ T) (hR : 1 ≤ R) :
    ((T - 1) * (R - 1) ≤ 1 ↔ ∀ tx rx, tx < T → rx < R → linkIndex T rx tx < pathCountsSize T R) := by
  obtain ⟨a, rfl⟩ : ∃ a, T = a + 1 := ⟨T - 1, by omega⟩
  obtain ⟨b, rfl⟩ : ∃ b, R = b + 1 := ⟨R - 1, by omega⟩
  simp only [Nat.add_sub_cancel, linkIndex, pathCountsSize]
  constructor
  · intro hab tx rx htx hrx
    have h1 : rx * (a + 1) + tx ≤ b * (a + 1) + a := by
      have : rx ≤ b := by omega
      have := Nat.mul_le_mul_right (a + 1) this
      omega
    have h2 : b * (a + 1) = a * b + b := by ring
    have h3 : a * b ≤ 1 := hab
    omega
  · intro h
    have := h a b (by omega) (by omega)
    have h2 : b * (a + 1) = a * b + b := by ring
    rw [h2] at this
    omega

/-- C2 amended, witness: with 3 transmitters and 1 receiver the bound holds,
here at transmitter 2 of receiver 0. -/
theorem pathCounts_alloc_iff_witness : linkIndex 3 0 2 < pathCountsSize 3 1 :=
  (pathCounts_alloc_iff 3 1 (by decide) (by decide)).mp (by decide) 2 0 (by decide) (by decide)

/-! ## Claim C9: degenerate initialization of the point-cloud environment -/

/-- C9: `PointCloudEnvironment::Init` returns `false` — aborting before
`GenerateRayTracingData` — whenever the input has at most one point, the
voxel size is 0, or any computed voxel-world dimension is 0, for every
possible outcome `genRT` of the excluded GPU stage. -/
theorem pointCloudInit_degenerate (genRT : Bool) (points : List PointData) (vs : ℚ)
    (h : points.length ≤ 1 ∨ vs = 0 ∨
      (voxelDims (loadPointsAabb points) vs).1 = 0 ∨
      (voxelDims (loadPointsAabb points) vs).2.1 = 0 ∨
      (voxelDims (loadPointsAabb points) vs).2.2 = 0) :
    initReturns (pointCloudInit genRT points vs) = false ∧
      (pointCloudInit genRT points vs = .tooFewPoints ∨
       pointCloudInit genRT points vs = .voxelWorldFailed) := by
  by_cases hlen : points.length ≤ 1
  · simp [pointCloudInit, hlen, initReturns]
  · have hok : computeVoxelWorldOk (loadPointsAabb points) vs = false := by
      rcases h with h | h | h | h | h
      · exact absurd h hlen
      · simp [computeVoxelWorldOk, h]
      · simp only [computeVoxelWorldOk]
        rw [h]
        simp
      · simp only [computeVoxelWorldOk]
        rw [h]
        simp
      · simp only [computeVoxelWorldOk]
        rw [h]
        simp
    simp [pointCloudInit, hlen, hok, initReturns]

/-- C9 witness: a single-point cloud with voxel size 1 is rejected before
ray-tracing-data generation, whatever the GPU stage would have returned. -/
theorem pointCloudInit_degenerate_witness :
    initReturns (pointCloudInit true [⟨v3zero, v3zero, 0, 0⟩] 1) = false ∧
      (pointCloudInit true [⟨v3zero, v3zero, 0, 0⟩] 1 = .tooFewPoints ∨
       pointCloudInit true [⟨v3zero, v3zero, 0, 0⟩] 1 = .voxelWorldFailed) :=
  pointCloudInit_degenerate true [⟨v3zero, v3zero, 0, 0⟩] 1 (Or.inl (by decide))

/-! ## The aggregation invariant -/

/-- The time delays of all submitted candidates whose identity key is `k`. -/
def delaysOf (hm : HashModel) (cs : List Candidate) (k : ℕ) : List ℚ :=
  (cs.filter (fun c => decide (keyOf hm c = k))).map (fun c => c.info.timeDelay)

/-- The number of retained paths whose stored link index is `ℓ` and stored
output class is `t`. -/
def countStored (s : Store) (ℓ t : ℕ) : ℕ :=
  (List.range s.txIDs.length).countP (fun i =>
    decide (linkIndex s.transmitters.length (s.rxIDs.getD i 0) (s.txIDs.getD i 0) = ℓ ∧
      sionnaTypeIndex (s.pathTypes.getD i .LineOfSight) = t))

theorem getElem?_some_lt {α : Type} {l : List α} {i : ℕ} {a : α} (h : l[i]? = some a) :
    i < l.length := by
  by_contra hc
  rw [List.getElem?_eq_none (by omega)] at h
  exact Option.noConfusion h

/-- Everything that relates the store reached by feeding the candidate list
`cs` through `AddPaths` to `cs` itself. -/
structure StoreOk (hm : HashModel) (mi : ℕ) (txs rxs : List Vec3)
    (cs : List Candidate) (s : Store) : Prop where
  maxIa_eq : s.maxNumIa = mi
  tx_eq : s.transmitters = txs
  rx_eq : s.receivers = rxs
  posIdx : ∀ (i : ℕ) (p : ℕ × PathEntry), s.pathMap[i]? = some p → p.2.pathIndex = i
  keysNodup : (s.pathMap.map Prod.fst).Nodup
  memKeys : ∀ k, (∃ e, mapFind s.pathMap k = some e) ↔ k ∈ cs.map (keyOf hm)
  lenTD : s.timeDelays.length = s.pathMap.length
  lenTx : s.txIDs.length = s.pathMap.length
  lenRx : s.rxIDs.length = s.pathMap.length
  lenPT : s.pathTypes.length = s.pathMap.length
  lenNI : s.numInteractions.length = s.pathMap.length
  lenIa : ∀ ia, ia < mi →
    (s.interactionData ia).interactions.length = s.pathMap.length ∧
    (s.interactionData ia).normals.length = s.pathMap.length ∧
    (s.interactionData ia).labels.length = s.pathMap.length ∧
    (s.interactionData ia).materials.length = s.pathMap.length
  delayMem : ∀ k e, mapFind s.pathMap k = some e → e.timeDelay ∈ delaysOf hm cs k
  delayMin : ∀ k e, mapFind s.pathMap k = some e → ∀ d ∈ delaysOf hm cs k, e.timeDelay ≤ d
  tdAt : ∀ k e, mapFind s.pathMap k = some e → s.timeDelays.getD e.pathIndex 0 = e.timeDelay
  scFirst : ∀ k e, mapFind s.pathMap k = some e → ∀ c₀,
      cs.find? (fun c => decide (keyOf hm c = k)) = some c₀ →
      s.txIDs.getD e.pathIndex 0 = c₀.info.txID ∧
      s.rxIDs.getD e.pathIndex 0 = c₀.info.rxID ∧
      s.pathTypes.getD e.pathIndex .LineOfSight = c₀.info.pathType
  nFrom : ∀ k e, mapFind s.pathMap k = some e → ∃ c ∈ cs, keyOf hm c = k ∧
      s.numInteractions.getD e.pathIndex 0 = c.info.numInteractions
  counts : ∀ ℓ t, s.pathCounts ℓ t = countStored s ℓ t
  maxOk : ∀ ℓ t, s.pathCounts ℓ t ≤ s.maxLinkPaths t

theorem StoreOk.pathIndex_lt {hm mi txs rxs cs s} (hs : StoreOk hm mi txs rxs cs s)
    {k : ℕ} {e : PathEntry} (h : mapFind s.pathMap k = some e) :
    e.pathIndex < s.pathMap.length := by
  obtain ⟨i, hi⟩ := List.mem_iff_getElem?.mp (mapFind_mem h)
  have := hs.posIdx i (k, e) hi
  have hlt := getElem?_some_lt hi
  exact lt_of_eq_of_lt this hlt

theorem StoreOk.pathIndex_inj {hm mi txs rxs cs s} (hs : StoreOk hm mi txs rxs cs s)
    {k k' : ℕ} {e e' : PathEntry} (h : mapFind s.pathMap k = some e)
    (h' : mapFind s.pathMap k' = some e') (hk : k ≠ k') :
    e.pathIndex ≠ e'.pathIndex := by
  obtain ⟨i, hi⟩ := List.mem_iff_getElem?.mp (mapFind_mem h)
  obtain ⟨j, hj⟩ := List.mem_iff_getElem?.mp (mapFind_mem h')
  have hpi := hs.posIdx i (k, e) hi
  have hpj := hs.posIdx j (k', e') hj
  intro hc
  rw [hpi, hpj] at hc
  subst hc
  rw [hi] at hj
  exact hk (congrArg Prod.fst (Option.some.inj hj))

theorem delaysOf_append (hm : HashModel) (cs : List Candidate) (c : Candidate) (k : ℕ) :
    delaysOf hm (cs ++ [c]) k =
      delaysOf hm cs k ++ (if keyOf hm c = k then [c.info.timeDelay] else []) := by
  by_cases h : keyOf hm c = k <;>
    simp [delaysOf, List.filter_append, List.filter, h]

theorem delaysOf_eq_nil (hm : HashModel) (cs : List Candidate) (k : ℕ)
    (h : k ∉ cs.map (keyOf hm)) : delaysOf hm cs k = [] := by
  have : cs.filter (fun c => decide (keyOf hm c = k)) = [] := by
    rw [List.filter_eq_nil_iff]
    intro a ha
    simp only [decide_eq_true_eq]
    exact fun hk => h (List.mem_map.mpr ⟨a, ha, hk⟩)
  simp [delaysOf, this]

theorem find?_key_append (hm : HashModel) (cs : List Candidate) (c : Candidate) (k : ℕ) :
    (cs ++ [c]).find? (fun c' => decide (keyOf hm c' = k)) =
      ((cs.find? (fun c' => decide (keyOf hm c' = k))).or
        (if keyOf hm c = k then some c else none)) := by
  rw [List.find?_append]
  by_cases h : keyOf hm c = k <;> simp [List.find?, h]

/-- The empty store satisfies the invariant for the empty submission. -/
theorem storeOk_mk (hm : HashModel) (mi : ℕ) (txs rxs : List Vec3) :
    StoreOk hm mi txs rxs [] (mkStore mi txs rxs) := by
  refine ⟨rfl, rfl, rfl, ?_, ?_, ?_, rfl, rfl, rfl, rfl, rfl, ?_, ?_, ?_, ?_, ?_, ?_, ?_, ?_⟩
  · intro i p h
    simp [mkStore] at h
  · simp [mkStore]
  · intro k
    simp [mkStore, mapFind_nil]
  · intro ia _
    simp [mkStore]
  · intro k e h
    simp [mkStore, mapFind_nil] at h
  · intro k e h
    simp [mkStore, mapFind_nil] at h
  · intro k e h
    simp [mkStore, mapFind_nil] at h
  · intro k e h
    simp [mkStore, mapFind_nil] at h
  · intro k e h
    simp [mkStore, mapFind_nil] at h
  · intro ℓ t
    simp [mkStore, countStored]
  · intro ℓ t
    simp [mkStore]

/-! ## Projections of the three `AddPaths` branches -/

theorem insertPath_pathMap (hm : HashModel) (s : Store) (c : Candidate) :
    (insertPath hm s c).pathMap =
      s.pathMap ++ [(keyOf hm c, ⟨c.info.timeDelay, s.pathMap.length⟩)] := rfl

theorem insertPath_timeDelays (hm : HashModel) (s : Store) (c : Candidate) :
    (insertPath hm s c).timeDelays = s.timeDelays ++ [c.info.timeDelay] := rfl

theorem insertPath_txIDs (hm : HashModel) (s : Store) (c : Candidate) :
    (insertPath hm s c).txIDs = s.txIDs ++ [c.info.txID] := rfl

theorem insertPath_rxIDs (hm : HashModel) (s : Store) (c : Candidate) :
    (insertPath hm s c).rxIDs = s.rxIDs ++ [c.info.rxID] := rfl

theorem insertPath_pathTypes (hm : HashModel) (s : Store) (c : Candidate) :
    (insertPath hm s c).pathTypes = s.pathTypes ++ [c.info.pathType] := rfl

theorem insertPath_numInteractions (hm : HashModel) (s : Store) (c : Candidate) :
    (insertPath hm s c).numInteractions = s.numInteractions ++ [c.info.numInteractions] := rfl

theorem insertPath_transmitters (hm : HashModel) (s : Store) (c : Candidate) :
    (insertPath hm s c).transmitters = s.transmitters := rfl

theorem insertPath_receivers (hm : HashModel) (s : Store) (c : Candidate) :
    (insertPath hm s c).receivers = s.receivers := rfl

theorem insertPath_maxNumIa (hm : HashModel) (s : Store) (c : Candidate) :
    (insertPath hm s c).maxNumIa = s.maxNumIa := rfl

theorem insertPath_interactionData (hm : HashModel) (s : Store) (c : Candidate) (ia : ℕ) :
    (insertPath hm s c).interactionData ia =
      if ia < s.maxNumIa then
        if ia < c.info.numInteractions then
          (s.interactionData ia).push (c.interactions.getD ia v3zero)
            (c.normals.getD ia v3zero) (c.labels.getD ia 0) (c.materials.getD ia 0)
        else (s.interactionData ia).push v3zero v3zero sentinel sentinel
      else s.interactionData ia := rfl

theorem insertPath_pathCounts (hm : HashModel) (s : Store) (c : Candidate) :
    (insertPath hm s c).pathCounts =
      upd2 s.pathCounts (linkIndex s.transmitters.length c.info.rxID c.info.txID)
        (sionnaTypeIndex c.info.pathType)
        (s.pathCounts (linkIndex s.transmitters.length c.info.rxID c.info.txID)
          (sionnaTypeIndex c.info.pathType) + 1) := rfl

theorem insertPath_maxLinkPaths (hm : HashModel) (s : Store) (c : Candidate) :
    (insertPath hm s c).maxLinkPaths =
      upd s.maxLinkPaths (sionnaTypeIndex c.info.pathType)
        (max (s.maxLinkPaths (sionnaTypeIndex c.info.pathType))
          (s.pathCounts (linkIndex s.transmitters.length c.info.rxID c.info.txID)
            (sionnaTypeIndex c.info.pathType) + 1)) := rfl

theorem overwritePath_pathMap (hm : HashModel) (s : Store) (c : Candidate) (e : PathEntry) :
    (overwritePath hm s c e).pathMap = mapUpdate s.pathMap (keyOf hm c) c.info.timeDelay := rfl

theorem overwritePath_timeDelays (hm : HashModel) (s : Store) (c : Candidate) (e : PathEntry) :
    (overwritePath hm s c e).timeDelays = s.timeDelays.set e.pathIndex c.info.timeDelay := rfl

theorem overwritePath_numInteractions (hm : HashModel) (s : Store) (c : Candidate) (e : PathEntry) :
    (overwritePath hm s c e).numInteractions =
      s.numInteractions.set e.pathIndex c.info.numInteractions := rfl

theorem overwritePath_interactionData (hm : HashModel) (s : Store) (c : Candidate)
    (e : PathEntry) (ia : ℕ) :
    (overwritePath hm s c e).interactionData ia =
      if ia < c.info.numInteractions then
        (s.interactionData ia).setAt e.pathIndex (c.interactions.getD ia v3zero)
          (c.normals.getD ia v3zero) (c.labels.getD ia 0) (c.materials.getD ia 0)
      else s.interactionData ia := rfl

theorem overwritePath_txIDs (hm : HashModel) (s : Store) (c : Candidate) (e : PathEntry) :
    (overwritePath hm s c e).txIDs = s.txIDs := rfl

theorem overwritePath_rxIDs (hm : HashModel) (s : Store) (c : Candidate) (e : PathEntry) :
    (overwritePath hm s c e).rxIDs = s.rxIDs := rfl

theorem overwritePath_pathTypes (hm : HashModel) (s : Store) (c : Candidate) (e : PathEntry) :
    (overwritePath hm s c e).pathTypes = s.pathTypes := rfl

theorem overwritePath_pathCounts (hm : HashModel) (s : Store) (c : Candidate) (e : PathEntry) :
    (overwritePath hm s c e).pathCounts = s.pathCounts := rfl

theorem overwritePath_maxLinkPaths (hm : HashModel) (s : Store) (c : Candidate) (e : PathEntry) :
    (overwritePath hm s c e).maxLinkPaths = s.maxLinkPaths := rfl

theorem overwritePath_transmitters (hm : HashModel) (s : Store) (c : Candidate) (e : PathEntry) :
    (overwritePath hm s c e).transmitters = s.transmitters := rfl

theorem overwritePath_receivers (hm : HashModel) (s : Store) (c : Candidate) (e : PathEntry) :
    (overwritePath hm s c e).receivers = s.receivers := rfl

theorem overwritePath_maxNumIa (hm : HashModel) (s : Store) (c : Candidate) (e : PathEntry) :
    (overwritePath hm s c e).maxNumIa = s.maxNumIa := rfl

/-! ## Invariant preservation: the insertion branch -/

theorem storeOk_insert {hm : HashModel} {mi : ℕ} {txs rxs : List Vec3}
    {cs : List Candidate} {s : Store} (c : Candidate)
    (hs : StoreOk hm mi txs rxs cs s)
    (h : mapFind s.pathMap (keyOf hm c) = none) :
    StoreOk hm mi txs rxs (cs ++ [c]) (insertPath hm s c) := by
  have hnotmem : keyOf hm c ∉ s.pathMap.map Prod.fst := (mapFind_eq_none_iff _ _).mp h
  have hnotcs : keyOf hm c ∉ cs.map (keyOf hm) := by
    intro hmem
    obtain ⟨e, he⟩ := (hs.memKeys (keyOf hm c)).mpr hmem
    rw [h] at he
    exact Option.noConfusion he
  have hfindnone : cs.find? (fun c' => decide (keyOf hm c' = keyOf hm c)) = none := by
    rw [List.find?_eq_none]
    intro a ha
    simp only [decide_eq_true_eq]
    exact fun hk => hnotcs (List.mem_map.mpr ⟨a, ha, hk⟩)
  refine ⟨hs.maxIa_eq, hs.tx_eq, hs.rx_eq, ?_, ?_, ?_, ?_, ?_, ?_, ?_, ?_, ?_, ?_, ?_, ?_, ?_, ?_, ?_, ?_⟩
  · -- posIdx
    intro i p hp
    rw [insertPath_pathMap] at hp
    by_cases hi : i < s.pathMap.length
    · rw [List.getElem?_append_left hi] at hp
      exact hs.posIdx i p hp
    · rw [List.getElem?_append_right (by omega)] at hp
      cases hd : i - s.pathMap.length with
      | zero =>
        rw [hd] at hp
        simp only [List.getElem?_cons_zero, Option.some.injEq] at hp
        subst hp
        simp only
        omega
      | succ m =>
        rw [hd] at hp
        simp at hp
  · -- keysNodup
    rw [insertPath_pathMap]
    simp only [List.map_append, List.map_cons, List.map_nil]
    rw [List.nodup_append]
    exact ⟨hs.keysNodup, List.nodup_singleton _, by
      intro a ha hb
      simp at hb
      subst hb
      exact hnotmem ha⟩
  · -- memKeys
    intro k
    rw [insertPath_pathMap, mapFind_append, mapFind_single]
    simp only [List.map_append, List.map_cons, List.map_nil, List.mem_append,
      List.mem_singleton]
    by_cases hk : keyOf hm c = k
    · subst hk
      rw [h]
      simp
    · rw [if_neg hk, Option.or_none]
      rw [hs.memKeys k]
      exact (or_iff_left fun hh => hk hh.symm).symm
  · -- lenTD
    rw [insertPath_pathMap, insertPath_timeDelays]
    simp [hs.lenTD]
  · -- lenTx
    rw [insertPath_pathMap, insertPath_txIDs]
    simp [hs.lenTx]
  · -- lenRx
    rw [insertPath_pathMap, insertPath_rxIDs]
    simp [hs.lenRx]
  · -- lenPT
    rw [insertPath_pathMap, insertPath_pathTypes]
    simp [hs.lenPT]
  · -- lenNI
    rw [insertPath_pathMap, insertPath_numInteractions]
    simp [hs.lenNI]
  · -- lenIa
    intro ia hia
    obtain ⟨h1, h2, h3, h4⟩ := hs.lenIa ia hia
    rw [insertPath_pathMap]
    rw [insertPath_interactionData, hs.maxIa_eq, if_pos hia]
    by_cases hn : ia < c.info.numInteractions <;>
      simp [SlotData.push, h1, h2, h3, h4, hn]
  · -- delayMem
    intro k e he
    rw [insertPath_pathMap, mapFind_append, mapFind_single] at he
    rw [delaysOf_append]
    cases hmk : mapFind s.pathMap k with
    | some e' =>
      rw [hmk] at he
      obtain rfl : e' = e := Option.some.inj he
      exact List.mem_append_left _ (hs.delayMem k e' hmk)
    | none =>
      rw [hmk] at he
      simp only [Option.none_or] at he
      by_cases hk : keyOf hm c = k
      · rw [if_pos hk] at he
        obtain rfl : (⟨c.info.timeDelay, s.pathMap.length⟩ : PathEntry) = e :=
          Option.some.inj he
        rw [if_pos hk]
        simp
      · rw [if_neg hk] at he
        exact Option.noConfusion he
  · -- delayMin
    intro k e he d hd
    rw [insertPath_pathMap, mapFind_append, mapFind_single] at he
    rw [delaysOf_append] at hd
    cases hmk : mapFind s.pathMap k with
    | some e' =>
      rw [hmk] at he
      obtain rfl : e' = e := Option.some.inj he
      rcases List.mem_append.mp hd with hd | hd
      · exact hs.delayMin k e' hmk d hd
      · by_cases hk : keyOf hm c = k
        · exfalso
          rw [← hk] at hmk
          rw [h] at hmk
          exact Option.noConfusion hmk
        · rw [if_neg hk] at hd
          exact absurd hd (List.not_mem_nil d)
    | none =>
      rw [hmk] at he
      simp only [Option.none_or] at he
      by_cases hk : keyOf hm c = k
      · rw [if_pos hk] at he
        obtain rfl : (⟨c.info.timeDelay, s.pathMap.length⟩ : PathEntry) = e :=
          Option.some.inj he
        have hnil : delaysOf hm cs k = [] := by
          apply delaysOf_eq_nil
          intro hmem
          obtain ⟨e'', he''⟩ := (hs.memKeys k).mpr hmem
          rw [hmk] at he''
          exact Option.noConfusion he''
        rw [hnil, if_pos hk] at hd
        simp at hd
        subst hd
        exact le_refl _
      · rw [if_neg hk] at he
        exact Option.noConfusion he
  · -- tdAt
    intro k e he
    rw [insertPath_pathMap, mapFind_append, mapFind_single] at he
    rw [insertPath_timeDelays]
    cases hmk : mapFind s.pathMap k with
    | some e' =>
      rw [hmk] at he
      obtain rfl : e' = e := Option.some.inj he
      have hlt := hs.pathIndex_lt hmk
      rw [getD_append_left _ _ _ (by rw [hs.lenTD]; exact hlt)]
      exact hs.tdAt k e' hmk
    | none =>
      rw [hmk] at he
      simp only [Option.none_or] at he
      by_cases hk : keyOf hm c = k
      · rw [if_pos hk] at he
        obtain rfl : (⟨c.info.timeDelay, s.pathMap.length⟩ : PathEntry) = e :=
          Option.some.inj he
        simp only
        rw [← hs.lenTD, getD_append_len]
      · rw [if_neg hk] at he
        exact Option.noConfusion he
  · -- scFirst
    intro k e he c₀ hc₀
    rw [insertPath_pathMap, mapFind_append, mapFind_single] at he
    rw [find?_key_append] at hc₀
    rw [insertPath_txIDs, insertPath_rxIDs, insertPath_pathTypes]
    cases hmk : mapFind s.pathMap k with
    | some e' =>
      rw [hmk] at he
      obtain rfl : e' = e := Option.some.inj he
      have hlt := hs.pathIndex_lt hmk
      have hsome : ∃ c₁, cs.find? (fun c' => decide (keyOf hm c' = k)) = some c₁ := by
        rw [← Option.isSome_iff_exists, List.find?_isSome]
        obtain ⟨c₁, hc₁, hk₁⟩ := List.mem_map.mp ((hs.memKeys k).mp ⟨e', hmk⟩)
        exact ⟨c₁, hc₁, by simp [hk₁]⟩
      obtain ⟨c₁, hc₁⟩ := hsome
      rw [hc₁] at hc₀
      obtain rfl : c₁ = c₀ := Option.some.inj hc₀
      obtain ⟨ha, hb, hc⟩ := hs.scFirst k e' hmk c₁ hc₁
      refine ⟨?_, ?_, ?_⟩
      · rw [getD_append_left _ _ _ (by rw [hs.lenTx]; exact hlt)]; exact ha
      · rw [getD_append_left _ _ _ (by rw [hs.lenRx]; exact hlt)]; exact hb
      · rw [getD_append_left _ _ _ (by rw [hs.lenPT]; exact hlt)]; exact hc
    | none =>
      rw [hmk] at he
      simp only [Option.none_or] at he
      by_cases hk : keyOf hm c = k
      · rw [if_pos hk] at he
        obtain rfl : (⟨c.info.timeDelay, s.pathMap.length⟩ : PathEntry) = e :=
          Option.some.inj he
        subst hk
        rw [hfindnone] at hc₀
        simp only [Option.none_or, if_pos rfl] at hc₀
        obtain rfl : c = c₀ := Option.some.inj hc₀
        simp only
        refine ⟨?_, ?_, ?_⟩
        · rw [← hs.lenTx, getD_append_len]
        · rw [← hs.lenRx, getD_append_len]
        · rw [← hs.lenPT, getD_append_len]
      · rw [if_neg hk] at he
        exact Option.noConfusion he
  · -- nFrom
    intro k e he
    rw [insertPath_pathMap, mapFind_append, mapFind_single] at he
    rw [insertPath_numInteractions]
    cases hmk : mapFind s.pathMap k with
    | some e' =>
      rw [hmk] at he
      obtain rfl : e' = e := Option.some.inj he
      obtain ⟨c', hc', hk', hn'⟩ := hs.nFrom k e' hmk
      refine ⟨c', List.mem_append_left _ hc', hk', ?_⟩
      have hlt := hs.pathIndex_lt hmk
      rw [getD_append_left _ _ _ (by rw [hs.lenNI]; exact hlt)]
      exact hn'
    | none =>
      rw [hmk] at he
      simp only [Option.none_or] at he
      by_cases hk : keyOf hm c = k
      · rw [if_pos hk] at he
        obtain rfl : (⟨c.info.timeDelay, s.pathMap.length⟩ : PathEntry) = e :=
          Option.some.inj he
        refine ⟨c, List.mem_append_right _ (by simp), hk, ?_⟩
        simp only
        rw [← hs.lenNI, getD_append_len]
      · rw [if_neg hk] at he
        exact Option.noConfusion he
  · -- counts
    intro ℓ t
    have hNtx := hs.lenTx
    have hNrx := hs.lenRx
    have hNpt := hs.lenPT
    have hTXlen : (insertPath hm s c).txIDs.length = s.txIDs.length + 1 := by
      rw [insertPath_txIDs]; simp
    unfold countStored
    simp only [insertPath_transmitters, insertPath_pathCounts]
    rw [hTXlen, List.range_succ, List.countP_append]
    have hcongr : (List.range s.txIDs.length).countP (fun i =>
        decide (linkIndex s.transmitters.length
          ((insertPath hm s c).rxIDs.getD i 0) ((insertPath hm s c).txIDs.getD i 0) = ℓ ∧
          sionnaTypeIndex ((insertPath hm s c).pathTypes.getD i .LineOfSight) = t)) =
        (List.range s.txIDs.length).countP (fun i =>
        decide (linkIndex s.transmitters.length (s.rxIDs.getD i 0) (s.txIDs.getD i 0) = ℓ ∧
          sionnaTypeIndex (s.pathTypes.getD i .LineOfSight) = t)) := by
      apply List.countP_congr
      intro i hi
      rw [List.mem_range] at hi
      rw [insertPath_txIDs, insertPath_rxIDs, insertPath_pathTypes]
      rw [getD_append_left _ _ _ hi, getD_append_left _ _ _ (by omega),
        getD_append_left _ _ _ (by omega)]
    rw [hcongr]
    have hlastRx : ((insertPath hm s c).rxIDs.getD s.txIDs.length 0) = c.info.rxID := by
      rw [insertPath_rxIDs, show s.txIDs.length = s.rxIDs.length by omega, getD_append_len]
    have hlastTx : ((insertPath hm s c).txIDs.getD s.txIDs.length 0) = c.info.txID := by
      rw [insertPath_txIDs, getD_append_len]
    have hlastPt : ((insertPath hm s c).pathTypes.getD s.txIDs.length .LineOfSight) =
        c.info.pathType := by
      rw [insertPath_pathTypes, show s.txIDs.length = s.pathTypes.length by omega,
        getD_append_len]
    have hsingle : List.countP (fun i =>
        decide (linkIndex s.transmitters.length
          ((insertPath hm s c).rxIDs.getD i 0) ((insertPath hm s c).txIDs.getD i 0) = ℓ ∧
          sionnaTypeIndex ((insertPath hm s c).pathTypes.getD i .LineOfSight) = t))
          [s.txIDs.length] =
        if linkIndex s.transmitters.length c.info.rxID c.info.txID = ℓ ∧
            sionnaTypeIndex c.info.pathType = t then 1 else 0 := by
      rw [List.countP_cons, List.countP_nil]
      rw [hlastRx, hlastTx, hlastPt]
      simp
    rw [hsingle]
    by_cases hmatch : linkIndex s.transmitters.length c.info.rxID c.info.txID = ℓ ∧
        sionnaTypeIndex c.info.pathType = t
    · obtain ⟨h1, h2⟩ := hmatch
      subst h1; subst h2
      rw [upd2_same, if_pos ⟨rfl, rfl⟩, ← countStored, ← hs.counts]
    · rw [upd2_ne _ _ _ _ (fun hc' => hmatch ⟨hc'.1.symm, hc'.2.symm⟩), if_neg hmatch,
        ← countStored, ← hs.counts]
      omega
  · -- maxOk
    intro ℓ t
    rw [insertPath_pathCounts, insertPath_maxLinkPaths]
    by_cases ht : t = sionnaTypeIndex c.info.pathType
    · subst ht
      rw [upd_same]
      by_cases hl : ℓ = linkIndex s.transmitters.length c.info.rxID c.info.txID
      · subst hl
        rw [upd2_same]
        exact le_max_right _ _
      · rw [upd2_ne _ _ _ _ (fun hc' => hl hc'.1)]
        exact le_trans (hs.maxOk ℓ _) (le_max_left _ _)
    · rw [upd_ne _ _ _ ht, upd2_ne _ _ _ _ (fun hc' => ht hc'.2)]
      exact hs.maxOk ℓ t

/-! ## Invariant preservation: the overwrite branch -/

theorem storeOk_overwrite {hm : HashModel} {mi : ℕ} {txs rxs : List Vec3}
    {cs : List Candidate} {s : Store} (c : Candidate) (e : PathEntry)
    (hs : StoreOk hm mi txs rxs cs s)
    (h : mapFind s.pathMap (keyOf hm c) = some e)
    (hlt : c.info.timeDelay < e.timeDelay) :
    StoreOk hm mi txs rxs (cs ++ [c]) (overwritePath hm s c e) := by
  have hpe : e.pathIndex < s.pathMap.length := hs.pathIndex_lt h
  refine ⟨hs.maxIa_eq, hs.tx_eq, hs.rx_eq, ?_, ?_, ?_, ?_, ?_, ?_, ?_, ?_, ?_, ?_, ?_, ?_, ?_, ?_, ?_, ?_⟩
  · -- posIdx
    intro i p hp
    rw [overwritePath_pathMap] at hp
    unfold mapUpdate at hp
    rw [List.getElem?_map] at hp
    cases hq : s.pathMap[i]? with
    | none =>
      rw [hq] at hp
      exact Option.noConfusion hp
    | some q =>
      rw [hq] at hp
      have hgq : _ = p := Option.some.inj hp
      subst hgq
      have hqi := hs.posIdx i q hq
      by_cases hqk : q.1 = keyOf hm c <;> simp [hqk, hqi]
  · -- keysNodup
    rw [overwritePath_pathMap, mapUpdate_map_fst]
    exact hs.keysNodup
  · -- memKeys
    intro k
    rw [overwritePath_pathMap]
    simp only [List.map_append, List.map_cons, List.map_nil, List.mem_append,
      List.mem_singleton]
    by_cases hk : k = keyOf hm c
    · subst hk
      rw [mapFind_mapUpdate_self, h]
      simp
    · rw [mapFind_mapUpdate_ne _ _ _ hk]
      rw [hs.memKeys k]
      exact (or_iff_left hk).symm
  · -- lenTD
    rw [overwritePath_pathMap, overwritePath_timeDelays, mapUpdate_length]
    simp [hs.lenTD]
  · -- lenTx
    rw [overwritePath_pathMap, overwritePath_txIDs, mapUpdate_length]
    exact hs.lenTx
  · -- lenRx
    rw [overwritePath_pathMap, overwritePath_rxIDs, mapUpdate_length]
    exact hs.lenRx
  · -- lenPT
    rw [overwritePath_pathMap, overwritePath_pathTypes, mapUpdate_length]
    exact hs.lenPT
  · -- lenNI
    rw [overwritePath_pathMap, overwritePath_numInteractions, mapUpdate_length]
    simp [hs.lenNI]
  · -- lenIa
    intro ia hia
    obtain ⟨h1, h2, h3, h4⟩ := hs.lenIa ia hia
    rw [overwritePath_pathMap, mapUpdate_length, overwritePath_interactionData]
    by_cases hn : ia < c.info.numInteractions <;>
      simp [SlotData.setAt, h1, h2, h3, h4, hn]
  · -- delayMem
    intro k e' he'
    rw [overwritePath_pathMap] at he'
    rw [delaysOf_append]
    by_cases hk : k = keyOf hm c
    · subst hk
      rw [mapFind_mapUpdate_self, h] at he'
      obtain rfl : (⟨c.info.timeDelay, e.pathIndex⟩ : PathEntry) = e' := Option.some.inj he'
      apply List.mem_append_right
      simp
    · rw [mapFind_mapUpdate_ne _ _ _ hk] at he'
      exact List.mem_append_left _ (hs.delayMem k e' he')
  · -- delayMin
    intro k e' he' d hd
    rw [overwritePath_pathMap] at he'
    rw [delaysOf_append] at hd
    by_cases hk : k = keyOf hm c
    · subst hk
      rw [mapFind_mapUpdate_self, h] at he'
      obtain rfl : (⟨c.info.timeDelay, e.pathIndex⟩ : PathEntry) = e' := Option.some.inj he'
      rcases List.mem_append.mp hd with hd | hd
      · exact le_of_lt (lt_of_lt_of_le hlt (hs.delayMin _ e h d hd))
      · rw [if_pos rfl] at hd
        simp at hd
        subst hd
        exact le_refl _
    · rw [mapFind_mapUpdate_ne _ _ _ hk] at he'
      rcases List.mem_append.mp hd with hd | hd
      · exact hs.delayMin k e' he' d hd
      · rw [if_neg (fun hc' => hk hc'.symm)] at hd
        exact absurd hd (List.not_mem_nil d)
  · -- tdAt
    intro k e' he'
    rw [overwritePath_pathMap] at he'
    rw [overwritePath_timeDelays]
    by_cases hk : k = keyOf hm c
    · subst hk
      rw [mapFind_mapUpdate_self, h] at he'
      obtain rfl : (⟨c.info.timeDelay, e.pathIndex⟩ : PathEntry) = e' := Option.some.inj he'
      simp only
      rw [getD_set_self _ _ _ (by rw [hs.lenTD]; exact hpe)]
    · rw [mapFind_mapUpdate_ne _ _ _ hk] at he'
      have hne : e.pathIndex ≠ e'.pathIndex :=
        hs.pathIndex_inj h he' (fun hc' => hk hc'.symm)
      rw [getD_set_ne _ _ _ hne]
      exact hs.tdAt k e' he'
  · -- scFirst
    intro k e' he' c₀ hc₀
    rw [overwritePath_pathMap] at he'
    rw [find?_key_append] at hc₀
    rw [overwritePath_txIDs, overwritePath_rxIDs, overwritePath_pathTypes]
    by_cases hk : k = keyOf hm c
    · subst hk
      rw [mapFind_mapUpdate_self, h] at he'
      obtain rfl : (⟨c.info.timeDelay, e.pathIndex⟩ : PathEntry) = e' := Option.some.inj he'
      have hsome : ∃ c₁,
          cs.find? (fun c' => decide (keyOf hm c' = keyOf hm c)) = some c₁ := by
        rw [← Option.isSome_iff_exists, List.find?_isSome]
        obtain ⟨c₁, hc₁, hk₁⟩ := List.mem_map.mp ((hs.memKeys (keyOf hm c)).mp ⟨e, h⟩)
        exact ⟨c₁, hc₁, by simp [hk₁]⟩
      obtain ⟨c₁, hc₁⟩ := hsome
      rw [hc₁] at hc₀
      obtain rfl : c₁ = c₀ := Option.some.inj hc₀
      exact hs.scFirst (keyOf hm c) e h c₁ hc₁
    · rw [mapFind_mapUpdate_ne _ _ _ hk] at he'
      rw [if_neg (fun hc' => hk hc'.symm), Option.or_none] at hc₀
      exact hs.scFirst k e' he' c₀ hc₀
  · -- nFrom
    intro k e' he'
    rw [overwritePath_pathMap] at he'
    rw [overwritePath_numInteractions]
    by_cases hk : k = keyOf hm c
    · subst hk
      rw [mapFind_mapUpdate_self, h] at he'
      obtain rfl : (⟨c.info.timeDelay, e.pathIndex⟩ : PathEntry) = e' := Option.some.inj he'
      refine ⟨c, List.mem_append_right _ (by simp), rfl, ?_⟩
      simp only
      rw [getD_set_self _ _ _ (by rw [hs.lenNI]; exact hpe)]
    · rw [mapFind_mapUpdate_ne _ _ _ hk] at he'
      obtain ⟨c', hc', hk', hn'⟩ := hs.nFrom k e' he'
      refine ⟨c', List.mem_append_left _ hc', hk', ?_⟩
      have hne : e.pathIndex ≠ e'.pathIndex :=
        hs.pathIndex_inj h he' (fun hc'' => hk hc''.symm)
      rw [getD_set_ne _ _ _ hne]
      exact hn'
  · -- counts
    intro ℓ t
    rw [overwritePath_pathCounts]
    exact hs.counts ℓ t
  · -- maxOk
    intro ℓ t
    rw [overwritePath_pathCounts, overwritePath_maxLinkPaths]
    exact hs.maxOk ℓ t

/-! ## Invariant preservation: the discard branch -/

theorem storeOk_discard {hm : HashModel} {mi : ℕ} {txs rxs : List Vec3}
    {cs : List Candidate} {s : Store} (c : Candidate) (e : PathEntry)
    (hs : StoreOk hm mi txs rxs cs s)
    (h : mapFind s.pathMap (keyOf hm c) = some e)
    (hge : ¬ c.info.timeDelay < e.timeDelay) :
    StoreOk hm mi txs rxs (cs ++ [c]) s := by
  refine ⟨hs.maxIa_eq, hs.tx_eq, hs.rx_eq, hs.posIdx, hs.keysNodup, ?_, hs.lenTD, hs.lenTx,
    hs.lenRx, hs.lenPT, hs.lenNI, hs.lenIa, ?_, ?_, hs.tdAt, ?_, ?_, hs.counts, hs.maxOk⟩
  · -- memKeys
    intro k
    simp only [List.map_append, List.map_cons, List.map_nil, List.mem_append,
      List.mem_singleton]
    constructor
    · intro hex
      exact Or.inl ((hs.memKeys k).mp hex)
    · rintro (hmem | hmem)
      · exact (hs.memKeys k).mpr hmem
      · subst hmem
        exact ⟨e, h⟩
  · -- delayMem
    intro k e' he'
    rw [delaysOf_append]
    exact List.mem_append_left _ (hs.delayMem k e' he')
  · -- delayMin
    intro k e' he' d hd
    rw [delaysOf_append] at hd
    rcases List.mem_append.mp hd with hd | hd
    · exact hs.delayMin k e' he' d hd
    · by_cases hk : keyOf hm c = k
      · rw [if_pos hk] at hd
        simp at hd
        subst hd
        subst hk
        rw [h] at he'
        obtain rfl : e = e' := Option.some.inj he'
        exact le_of_not_lt hge
      · rw [if_neg hk] at hd
        exact absurd hd (List.not_mem_nil d)
  · -- scFirst
    intro k e' he' c₀ hc₀
    rw [find?_key_append] at hc₀
    have hsome : ∃ c₁, cs.find? (fun c' => decide (keyOf hm c' = k)) = some c₁ := by
      rw [← Option.isSome_iff_exists, List.find?_isSome]
      obtain ⟨c₁, hc₁, hk₁⟩ := List.mem_map.mp ((hs.memKeys k).mp ⟨e', he'⟩)
      exact ⟨c₁, hc₁, by simp [hk₁]⟩
    obtain ⟨c₁, hc₁⟩ := hsome
    rw [hc₁] at hc₀
    obtain rfl : c₁ = c₀ := Option.some.inj hc₀
    exact hs.scFirst k e' he' c₁ hc₁
  · -- nFrom
    intro k e' he'
    obtain ⟨c', hc', hk', hn'⟩ := hs.nFrom k e' he'
    exact ⟨c', List.mem_append_left _ hc', hk', hn'⟩

/-! ## The invariant holds after any `AddPaths` sequence -/

theorem storeOk_step {hm : HashModel} {mi : ℕ} {txs rxs : List Vec3}
    {cs : List Candidate} {s : Store} (c : Candidate)
    (hs : StoreOk hm mi txs rxs cs s) :
    StoreOk hm mi txs rxs (cs ++ [c]) (addPath hm s c) := by
  cases h : mapFind s.pathMap (keyOf hm c) with
  | none =>
    rw [addPath_eq_insert hm s c h]
    exact storeOk_insert c hs h
  | some e =>
    by_cases hlt : c.info.timeDelay < e.timeDelay
    · rw [addPath_eq_overwrite hm s c e h hlt]
      exact storeOk_overwrite c e hs h hlt
    · rw [addPath_eq_discard hm s c e h hlt]
      exact storeOk_discard c e hs h hlt

theorem storeOk_run (hm : HashModel) (mi : ℕ) (txs rxs : List Vec3) (cs : List Candidate) :
    StoreOk hm mi txs rxs cs (addPaths hm (mkStore mi txs rxs) cs) := by
  induction cs using List.reverseRecOn with
  | nil => exact storeOk_mk hm mi txs rxs
  | append_singleton l c ih =>
    rw [addPaths_append]
    exact storeOk_step c ih

/-! ## Concrete instances used by witnesses and counterexamples -/

/-- A concrete conformant digest: zero seed, labels folded in by addition.
Distinct label sequences with equal sums collide, exhibiting the collision
risk the spec accepts. -/
def hmSum : HashModel := ⟨fun _ _ _ => 0, fun h l => h + l⟩

/-- Candidate with two interactions, labels `[3, 2]`, time delay 5. -/
def candA : Candidate :=
  ⟨⟨0, 0, .Specular, 2, 5⟩, [⟨1, 0, 0⟩, ⟨2, 0, 0⟩], [⟨0, 0, 1⟩, ⟨0, 0, 1⟩], [3, 2], [7, 8]⟩

/-- Candidate with one interaction, label `[5]`, time delay 3: under `hmSum`
it collides with `candA` (both keys are 5). -/
def candB : Candidate :=
  ⟨⟨0, 0, .Specular, 1, 3⟩, [⟨1, 0, 0⟩], [⟨0, 0, 1⟩], [5], [9]⟩

/-- Same identity as `candB`, lower time delay 2. -/
def candD : Candidate :=
  ⟨⟨0, 0, .Specular, 1, 2⟩, [⟨1, 0, 0⟩], [⟨0, 0, 1⟩], [5], [9]⟩

/-! ## Claim C1: deduplication and the minimum-time-delay invariant -/

/-- C1: after any sequence of `AddPaths` calls, the store holds exactly one
entry per distinct identity key among all submitted candidates (the map's
keys are duplicate-free and are exactly the submitted keys), and both the
map entry's time delay and the `m_TimeDelays` slot of that entry hold the
minimum time delay among all candidates sharing that identity key. -/
theorem addPaths_dedup_min (hm : HashModel) (mi : ℕ) (txs rxs : List Vec3)
    (batches : List (List Candidate)) :
    (((batches.foldl (addPaths hm) (mkStore mi txs rxs)).pathMap.map Prod.fst).Nodup ∧
     ∀ k, (∃ e, mapFind (batches.foldl (addPaths hm) (mkStore mi txs rxs)).pathMap k = some e)
        ↔ k ∈ batches.flatten.map (keyOf hm)) ∧
    (∀ k e, mapFind (batches.foldl (addPaths hm) (mkStore mi txs rxs)).pathMap k = some e →
       e.timeDelay ∈ delaysOf hm batches.flatten k ∧
       (∀ d ∈ delaysOf hm batches.flatten k, e.timeDelay ≤ d) ∧
       (batches.foldl (addPaths hm) (mkStore mi txs rxs)).timeDelays.getD e.pathIndex 0 =
         e.timeDelay) := by
  rw [foldl_addPaths_flatten]
  have hs := storeOk_run hm mi txs rxs batches.flatten
  exact ⟨⟨hs.keysNodup, hs.memKeys⟩,
    fun k e he => ⟨hs.delayMem k e he, hs.delayMin k e he, hs.tdAt k e he⟩⟩

/-- C1 witness: the spec's duplicate scenario — two batches submitting the
same identity with delays 3 then 2 retain the minimum delay 2. -/
theorem addPaths_dedup_min_witness :
    (2 : ℚ) ∈ delaysOf hmSum [candB, candD] 5 ∧
      (∀ d ∈ delaysOf hmSum [candB, candD] 5, (2 : ℚ) ≤ d) := by
  have h := (addPaths_dedup_min hmSum 1 [v3zero] [v3zero] [[candB], [candD]]).2 5
    ⟨2, 0⟩ (by decide)
  exact ⟨h.1, h.2.1⟩

/-! ## Claim C6: stability of the insertion-order index -/

theorem addPath_find_stable (hm : HashModel) (s : Store) (c : Candidate) (k : ℕ)
    (e : PathEntry) (h : mapFind s.pathMap k = some e) :
    ∃ e', mapFind (addPath hm s c).pathMap k = some e' ∧ e'.pathIndex = e.pathIndex := by
  cases hf : mapFind s.pathMap (keyOf hm c) with
  | none =>
    rw [addPath_eq_insert hm s c hf, insertPath_pathMap, mapFind_append, h]
    exact ⟨e, rfl, rfl⟩
  | some e₀ =>
    by_cases hlt : c.info.timeDelay < e₀.timeDelay
    · rw [addPath_eq_overwrite hm s c e₀ hf hlt, overwritePath_pathMap]
      by_cases hk : k = keyOf hm c
      · subst hk
        rw [mapFind_mapUpdate_self, h]
        exact ⟨⟨c.info.timeDelay, e.pathIndex⟩, rfl, rfl⟩
      · rw [mapFind_mapUpdate_ne _ _ _ hk]
        exact ⟨e, h, rfl⟩
    · rw [addPath_eq_discard hm s c e₀ hf hlt]
      exact ⟨e, h, rfl⟩

theorem addPathsList_find_stable (hm : HashModel) (s : Store) (cs : List Candidate) (k : ℕ)
    (e : PathEntry) (h : mapFind s.pathMap k = some e) :
    ∃ e', mapFind (addPaths hm s cs).pathMap k = some e' ∧ e'.pathIndex = e.pathIndex := by
  induction cs generalizing s e with
  | nil => exact ⟨e, h, rfl⟩
  | cons c t ih =>
    obtain ⟨e₁, he₁, hp₁⟩ := addPath_find_stable hm s c k e h
    obtain ⟨e₂, he₂, hp₂⟩ := ih (addPath hm s c) e₁ he₁
    exact ⟨e₂, he₂, hp₂.trans hp₁⟩

/-- C6: once an identity key holds an entry with some insertion-order slot
index, any sequence of later `AddPaths` calls leaves an entry for that key
with the *same* slot index: updates mutate in place and never reorder or
reindex a retained path. -/
theorem addPaths_stable_index (hm : HashModel) (s : Store)
    (batches : List (List Candidate)) (k : ℕ) (e : PathEntry)
    (h : mapFind s.pathMap k = some e) :
    ∃ e', mapFind (batches.foldl (addPaths hm) s).pathMap k = some e' ∧
      e'.pathIndex = e.pathIndex := by
  induction batches generalizing s e with
  | nil => exact ⟨e, h, rfl⟩
  | cons b bs ih =>
    obtain ⟨e₁, he₁, hp₁⟩ := addPathsList_find_stable hm s b k e h
    obtain ⟨e₂, he₂, hp₂⟩ := ih (addPaths hm s b) e₁ he₁
    exact ⟨e₂, he₂, hp₂.trans hp₁⟩

/-- C6 witness: the entry inserted for `candB` at slot 0 keeps slot 0 after a
later batch updates its delay. -/
theorem addPaths_stable_index_witness :
    ∃ e', mapFind (([[candD]] : List (List Candidate)).foldl (addPaths hmSum)
        (addPaths hmSum (mkStore 1 [v3zero] [v3zero]) [candB])).pathMap 5 = some e' ∧
      e'.pathIndex = 0 :=
  addPaths_stable_index hmSum (addPaths hmSum (mkStore 1 [v3zero] [v3zero]) [candB])
    [[candD]] 5 ⟨3, 0⟩ (by decide)

/-! ## Claim C5: frame effect of a shorter overwrite -/

/-- C5: when a candidate whose identity key already exists arrives with a
strictly lower time delay and an interaction count `n'` smaller than the
stored one, the overwrite touches only interaction slots `0 .. n'-1`, and
only at that path's slot index; every interaction slot at or beyond `n'` is
left with its previously stored values (not reset to the sentinel). -/
theorem addPath_overwrite_frame (hm : HashModel) (s : Store) (c : Candidate) (e : PathEntry)
    (hfind : mapFind s.pathMap (keyOf hm c) = some e)
    (hlt : c.info.timeDelay < e.timeDelay)
    (hsmall : c.info.numInteractions < s.numInteractions.getD e.pathIndex 0) :
    (∀ ia, c.info.numInteractions ≤ ia →
       (addPath hm s c).interactionData ia = s.interactionData ia) ∧
    (∀ ia, ia < c.info.numInteractions →
       ((addPath hm s c).interactionData ia).labels =
         (s.interactionData ia).labels.set e.pathIndex (c.labels.getD ia 0) ∧
       ((addPath hm s c).interactionData ia).materials =
         (s.interactionData ia).materials.set e.pathIndex (c.materials.getD ia 0) ∧
       ((addPath hm s c).interactionData ia).interactions =
         (s.interactionData ia).interactions.set e.pathIndex (c.interactions.getD ia v3zero) ∧
       ((addPath hm s c).interactionData ia).normals =
         (s.interactionData ia).normals.set e.pathIndex (c.normals.getD ia v3zero)) := by
  rw [addPath_eq_overwrite hm s c e hfind hlt]
  constructor
  · intro ia hia
    rw [overwritePath_interactionData, if_neg (by omega)]
  · intro ia hia
    rw [overwritePath_interactionData, if_pos hia]
    exact ⟨rfl, rfl, rfl, rfl⟩

/-- C5 witness: `candB` (one interaction, delay 3) overwrites the colliding
`candA` (two interactions, delay 5); interaction slot 1 keeps `candA`'s
stored values. -/
theorem addPath_overwrite_frame_witness :
    (addPath hmSum (addPaths hmSum (mkStore 2 [v3zero] [v3zero]) [candA]) candB
        ).interactionData 1 =
      (addPaths hmSum (mkStore 2 [v3zero] [v3zero]) [candA]).interactionData 1 :=
  (addPath_overwrite_frame hmSum (addPaths hmSum (mkStore 2 [v3zero] [v3zero]) [candA])
    candB ⟨5, 0⟩ (by decide) (by decide) (by decide)).1 1 (by decide)

/-! ## Claim C4: compact-exporter completeness -/

theorem getD_append_right {α : Type} (l₁ l₂ : List α) (d : α) {i : ℕ} (h : l₁.length ≤ i) :
    (l₁ ++ l₂).getD i d = l₂.getD (i - l₁.length) d := by
  simp [List.getD, List.getElem?_append_right h]

theorem length_flatMap_const {α : Type} (f : ℕ → List α) (m L : ℕ)
    (h : ∀ j, j < m → (f j).length = L) : ((List.range m).flatMap f).length = m * L := by
  induction m with
  | zero => simp
  | succ m ih =>
    rw [List.range_succ, List.flatMap_append]
    simp only [List.length_append]
    rw [ih (fun j hj => h j (by omega))]
    simp only [List.flatMap_cons, List.flatMap_nil, List.append_nil]
    rw [h m (by omega)]
    ring

theorem getD_flatMap_range {α : Type} (f : ℕ → List α) (m L : ℕ) (d : α)
    (h : ∀ j, j < m → (f j).length = L) {ia i : ℕ} (hia : ia < m) (hi : i < L) :
    ((List.range m).flatMap f).getD (ia * L + i) d = (f ia).getD i d := by
  induction m with
  | zero => omega
  | succ m ih =>
    rw [List.range_succ, List.flatMap_append]
    by_cases hm : ia < m
    · rw [getD_append_left]
      · exact ih (fun j hj => h j (by omega)) hm
      · rw [length_flatMap_const f m L (fun j hj => h j (by omega))]
        calc ia * L + i < ia * L + L := by omega
          _ = (ia + 1) * L := by ring
          _ ≤ m * L := Nat.mul_le_mul_right L (by omega)
    · have hia' : ia = m := by omega
      subst hia'
      rw [getD_append_right]
      · rw [length_flatMap_const f ia L (fun j hj => h j (by omega))]
        simp only [List.flatMap_cons, List.flatMap_nil, List.append_nil]
        congr 1
        omega
      · rw [length_flatMap_const f ia L (fun j hj => h j (by omega))]
        omega

theorem mapFind_getElem (m : List (ℕ × PathEntry)) (hnd : (m.map Prod.fst).Nodup)
    (i : ℕ) (p : ℕ × PathEntry) (hp : m[i]? = some p) : mapFind m p.1 = some p.2 := by
  induction m generalizing i with
  | nil => simp at hp
  | cons q t ih =>
    rcases i with _ | j
    · simp only [List.getElem?_cons_zero, Option.some.injEq] at hp
      subst hp
      rw [mapFind_cons, if_pos rfl]
    · simp only [List.getElem?_cons_succ] at hp
      have hmem : p ∈ t := List.getElem?_mem hp
      have hq : q.1 ≠ p.1 := by
        intro hc
        have hmem' : p.1 ∈ t.map Prod.fst := List.mem_map.mpr ⟨p, hmem, rfl⟩
        rw [List.map_cons, List.nodup_cons] at hnd
        exact hnd.1 (hc ▸ hmem')
      rw [mapFind_cons, if_neg hq]
      have hnd' : (t.map Prod.fst).Nodup := by
        rw [List.map_cons, List.nodup_cons] at hnd
        exact hnd.2
      exact ih hnd' j hp

/-- Sentinel cleanliness of the store: every retained entry's interaction
slots at or beyond its stored interaction count hold the sentinel label and
material. -/
def SentOk (s : Store) : Prop :=
  ∀ k e, mapFind s.pathMap k = some e → ∀ ia, s.numInteractions.getD e.pathIndex 0 ≤ ia →
    ia < s.maxNumIa →
    (s.interactionData ia).labels.getD e.pathIndex 0 = sentinel ∧
    (s.interactionData ia).materials.getD e.pathIndex 0 = sentinel

/-- No two submitted candidates with equal identity keys disagree on the
interaction count (no length-changing key collision). -/
def SameKeySameN (hm : HashModel) (cs : List Candidate) : Prop :=
  ∀ c ∈ cs, ∀ c' ∈ cs, keyOf hm c = keyOf hm c' →
    c.info.numInteractions = c'.info.numInteractions

theorem sentOk_step {hm : HashModel} {mi : ℕ} {txs rxs : List Vec3}
    {cs : List Candidate} {s : Store} (c : Candidate)
    (hs : StoreOk hm mi txs rxs cs s) (hsent : SentOk s)
    (hN : SameKeySameN hm (cs ++ [c])) :
    SentOk (addPath hm s c) := by
  cases hf : mapFind s.pathMap (keyOf hm c) with
  | none =>
    rw [addPath_eq_insert hm s c hf]
    intro k e he ia hnle hia
    rw [insertPath_maxNumIa] at hia
    rw [insertPath_pathMap, mapFind_append, mapFind_single] at he
    rw [insertPath_interactionData, if_pos hia]
    cases hmk : mapFind s.pathMap k with
    | some e' =>
      rw [hmk] at he
      obtain rfl : e' = e := Option.some.inj he
      have hlt := hs.pathIndex_lt hmk
      have hlen := hs.lenIa ia (by rw [← hs.maxIa_eq]; exact hia)
      rw [insertPath_numInteractions, getD_append_left _ _ _ (by rw [hs.lenNI]; exact hlt)]
        at hnle
      have hold := hsent k e' hmk ia hnle (by rw [hs.maxIa_eq] at hia; rw [hs.maxIa_eq]; exact hia)
      by_cases hn : ia < c.info.numInteractions <;>
        · simp only [SlotData.push, hn, if_pos, if_neg, ite_true, ite_false]
          constructor <;>
            rw [getD_append_left _ _ _ (by omega)] <;> [exact hold.1; exact hold.2]
    | none =>
      rw [hmk] at he
      simp only [Option.none_or] at he
      by_cases hk : keyOf hm c = k
      · rw [if_pos hk] at he
        obtain rfl : (⟨c.info.timeDelay, s.pathMap.length⟩ : PathEntry) = e :=
          Option.some.inj he
        rw [insertPath_numInteractions] at hnle
        simp only at hnle ⊢
        rw [← hs.lenNI, getD_append_len] at hnle
        have hlen := hs.lenIa ia (by rw [← hs.maxIa_eq]; exact hia)
        have hn : ¬ ia < c.info.numInteractions := by omega
        rw [if_neg hn]
        constructor
        · simp only [SlotData.push]
          rw [← hlen.2.2.1, getD_append_len]
        · simp only [SlotData.push]
          rw [← hlen.2.2.2, getD_append_len]
      · rw [if_neg hk] at he
        exact Option.noConfusion he
  | some e₀ =>
    by_cases hlt : c.info.timeDelay < e₀.timeDelay
    · rw [addPath_eq_overwrite hm s c e₀ hf hlt]
      -- the stored interaction count of the colliding entry equals the
      -- candidate's, by SameKeySameN through nFrom
      obtain ⟨c', hc', hk', hn'⟩ := hs.nFrom (keyOf hm c) e₀ hf
      have hcc : c.info.numInteractions = c'.info.numInteractions :=
        hN c (List.mem_append_right _ (by simp)) c' (List.mem_append_left _ hc') hk'.symm
      intro k e he ia hnle hia
      rw [overwritePath_maxNumIa] at hia
      rw [overwritePath_pathMap] at he
      rw [overwritePath_interactionData, overwritePath_numInteractions] at *
      by_cases hk : k = keyOf hm c
      · subst hk
        rw [mapFind_mapUpdate_self, hf] at he
        obtain rfl : (⟨c.info.timeDelay, e₀.pathIndex⟩ : PathEntry) = e := Option.some.inj he
        simp only at hnle ⊢
        rw [getD_set_self _ _ _ (by rw [hs.lenNI]; exact hs.pathIndex_lt hf)] at hnle
        have hn : ¬ ia < c.info.numInteractions := by omega
        rw [if_neg hn]
        exact hsent (keyOf hm c) e₀ hf ia (by omega) hia
      · rw [mapFind_mapUpdate_ne _ _ _ hk] at he
        have hne : e₀.pathIndex ≠ e.pathIndex :=
          hs.pathIndex_inj hf he (fun hc'' => hk hc''.symm)
        rw [getD_set_ne _ _ _ hne] at hnle
        have hold := hsent k e he ia hnle hia
        by_cases hn : ia < c.info.numInteractions
        · rw [if_pos hn]
          simp only [SlotData.setAt]
          rw [getD_set_ne _ _ _ hne, getD_set_ne _ _ _ hne]
          exact hold
        · rw [if_neg hn]
          exact hold
    · rw [addPath_eq_discard hm s c e₀ hf hlt]
      exact hsent

theorem sentOk_run (hm : HashModel) (mi : ℕ) (txs rxs : List Vec3) (cs : List Candidate)
    (hN : SameKeySameN hm cs) : SentOk (addPaths hm (mkStore mi txs rxs) cs) := by
  induction cs using List.reverseRecOn with
  | nil =>
    intro k e he ia _ _
    exact Option.noConfusion he
  | append_singleton l c ih =>
    rw [addPaths_append]
    have hNl : SameKeySameN hm l := fun c1 h1 c2 h2 hk =>
      hN c1 (List.mem_append_left _ h1) c2 (List.mem_append_left _ h2) hk
    exact sentOk_step c (storeOk_run hm mi txs rxs l) (ih hNl) hN

/-- C4 (amended): for every store produced by any sequence of `AddPaths`
calls, the `ToPathData` output's path dimension equals the retained-path
count and its interaction arrays have `maxNumInteractions` times that
length, both unconditionally; and provided no two candidates with equal
identity keys disagree on the interaction count (no length-changing key
collision), every interaction slot at or beyond a path's stored interaction
count holds the sentinel label and material. -/
theorem toPathData_complete (hm : HashModel) (mi : ℕ) (txs rxs : List Vec3)
    (batches : List (List Candidate)) :
    ((toPathData (batches.foldl (addPaths hm) (mkStore mi txs rxs))).1.timeDelays.length =
        (batches.foldl (addPaths hm) (mkStore mi txs rxs)).pathMap.length ∧
      (toPathData (batches.foldl (addPaths hm) (mkStore mi txs rxs))).1.txIDs.length =
        (batches.foldl (addPaths hm) (mkStore mi txs rxs)).pathMap.length ∧
      (toPathData (batches.foldl (addPaths hm) (mkStore mi txs rxs))).1.rxIDs.length =
        (batches.foldl (addPaths hm) (mkStore mi txs rxs)).pathMap.length ∧
      (toPathData (batches.foldl (addPaths hm) (mkStore mi txs rxs))).1.pathTypes.length =
        (batches.foldl (addPaths hm) (mkStore mi txs rxs)).pathMap.length ∧
      (toPathData (batches.foldl (addPaths hm) (mkStore mi txs rxs))).1.numInteractions.length =
        (batches.foldl (addPaths hm) (mkStore mi txs rxs)).pathMap.length) ∧
    ((toPathData (batches.foldl (addPaths hm) (mkStore mi txs rxs))).1.labels.length =
        mi * (batches.foldl (addPaths hm) (mkStore mi txs rxs)).pathMap.length ∧
      (toPathData (batches.foldl (addPaths hm) (mkStore mi txs rxs))).1.materials.length =
        mi * (batches.foldl (addPaths hm) (mkStore mi txs rxs)).pathMap.length ∧
      (toPathData (batches.foldl (addPaths hm) (mkStore mi txs rxs))).1.interactions.length =
        mi * (batches.foldl (addPaths hm) (mkStore mi txs rxs)).pathMap.length ∧
      (toPathData (batches.foldl (addPaths hm) (mkStore mi txs rxs))).1.normals.length =
        mi * (batches.foldl (addPaths hm) (mkStore mi txs rxs)).pathMap.length) ∧
    (SameKeySameN hm batches.flatten →
      ∀ i, i < (batches.foldl (addPaths hm) (mkStore mi txs rxs)).pathMap.length →
      ∀ ia, (batches.foldl (addPaths hm) (mkStore mi txs rxs)).numInteractions.getD i 0 ≤ ia →
        ia < mi →
        (toPathData (batches.foldl (addPaths hm) (mkStore mi txs rxs))).1.labels.getD
            (ia * (batches.foldl (addPaths hm) (mkStore mi txs rxs)).pathMap.length + i) 0 =
          sentinel ∧
        (toPathData (batches.foldl (addPaths hm) (mkStore mi txs rxs))).1.materials.getD
            (ia * (batches.foldl (addPaths hm) (mkStore mi txs rxs)).pathMap.length + i) 0 =
          sentinel) := by
  rw [foldl_addPaths_flatten]
  have hs := storeOk_run hm mi txs rxs batches.flatten
  refine ⟨⟨hs.lenTD, hs.lenTx, hs.lenRx, hs.lenPT, hs.lenNI⟩, ?_, ?_⟩
  · refine ⟨?_, ?_, ?_, ?_⟩ <;>
      · show ((List.range (addPaths hm (mkStore mi txs rxs)
            batches.flatten).maxNumIa).flatMap _).length = _
        rw [hs.maxIa_eq]
        exact length_flatMap_const _ _ _ (fun j hj => by
          obtain ⟨h1, h2, h3, h4⟩ := hs.lenIa j hj
          first | exact h3 | exact h4 | exact h1 | exact h2)
  · intro hN i hi ia hia hiamax
    have hsent := sentOk_run hm mi txs rxs batches.flatten hN
    have hp : (addPaths hm (mkStore mi txs rxs) batches.flatten).pathMap[i]? =
        some ((addPaths hm (mkStore mi txs rxs) batches.flatten).pathMap[i]) :=
      List.getElem?_eq_getElem hi
    have hfind := mapFind_getElem _ hs.keysNodup i _ hp
    have hpi := hs.posIdx i _ hp
    have hsen := hsent _ _ hfind ia (by rw [hpi]; exact hia)
      (by rw [hs.maxIa_eq]; exact hiamax)
    rw [hpi] at hsen
    constructor
    · show ((List.range (addPaths hm (mkStore mi txs rxs)
          batches.flatten).maxNumIa).flatMap _).getD _ _ = _
      rw [hs.maxIa_eq,
        getD_flatMap_range _ mi _ _ (fun j hj => (hs.lenIa j hj).2.2.1) hiamax hi]
      exact hsen.1
    · show ((List.range (addPaths hm (mkStore mi txs rxs)
          batches.flatten).maxNumIa).flatMap _).getD _ _ = _
      rw [hs.maxIa_eq,
        getD_flatMap_range _ mi _ _ (fun j hj => (hs.lenIa j hj).2.2.2) hiamax hi]
      exact hsen.2

/-- C4 counterexample: with the conformant digest `hmSum`, `candA` (labels
`[3,2]`, delay 5) and `candB` (labels `[5]`, delay 3) collide; the overwrite
leaves stored interaction count 1, yet the exported label at interaction
slot 1 (flat index `1 * 1 + 0 = 1`) is `candA`'s stale label 2, not the
sentinel — refuting the unconditional claim. -/
theorem toPathData_complete_counterexample :
    (addPaths hmSum (mkStore 2 [v3zero] [v3zero]) [candA, candB]).numInteractions.getD 0 0 = 1 ∧
    (addPaths hmSum (mkStore 2 [v3zero] [v3zero]) [candA, candB]).pathMap.length = 1 ∧
    (toPathData (addPaths hmSum (mkStore 2 [v3zero] [v3zero]) [candA, candB])).1.labels.getD
      (1 * 1 + 0) 0 = 2 ∧
    (2 : ℕ) ≠ sentinel := by
  decide

/-- C4 amended, witness: a collision-free run (`candB` then `candD`, same
identity and interaction count) leaves the sentinel in every slot at or
beyond the stored interaction count. -/
theorem toPathData_complete_witness :
    (toPathData ([[candB], [candD]].foldl (addPaths hmSum)
        (mkStore 2 [v3zero] [v3zero]))).1.labels.getD
      (1 * ([[candB], [candD]].foldl (addPaths hmSum)
        (mkStore 2 [v3zero] [v3zero])).pathMap.length + 0) 0 = sentinel :=
  ((toPathData_complete hmSum 2 [v3zero] [v3zero] [[candB], [candD]]).2.2
    (by intro c hc c' hc' hk; fin_cases hc <;> fin_cases hc' <;> revert hk <;> decide)
    0 (by decide) 1 (by decide) (by decide)).1

/-! ## Arithmetic of the dense fixed-stride indexing -/

theorem digit_inj {M a b s t : ℕ} (hs : s < M) (ht : t < M) (h : a * M + s = b * M + t) :
    a = b ∧ s = t := by
  have hM : 0 < M := by omega
  have h1 : (a * M + s) / M = a := by
    rw [mul_comm, Nat.mul_add_div hM, Nat.div_eq_of_lt hs]
    omega
  have h2 : (b * M + t) / M = b := by
    rw [mul_comm, Nat.mul_add_div hM, Nat.div_eq_of_lt ht]
    omega
  have hab : a = b := by rw [← h1, ← h2, h]
  subst hab
  exact ⟨rfl, by omega⟩

theorem pdi_inj {T M tx tx' rx rx' s s' : ℕ} (htx : tx < T) (htx' : tx' < T)
    (hs : s < M) (hs' : s' < M)
    (h : tx * M + rx * T * M + s = tx' * M + rx' * T * M + s') :
    tx = tx' ∧ rx = rx' ∧ s = s' := by
  have h1 : (rx * T + tx) * M + s = (rx' * T + tx') * M + s' := by
    have e1 : (rx * T + tx) * M + s = tx * M + rx * T * M + s := by ring
    have e2 : (rx' * T + tx') * M + s' = tx' * M + rx' * T * M + s' := by ring
    rw [e1, e2]
    exact h
  obtain ⟨h2, h3⟩ := digit_inj hs hs' h1
  obtain ⟨h4, h5⟩ := digit_inj htx htx' h2
  exact ⟨h5, h4, h3⟩

theorem ia4_inj {T R M ia ia' tx tx' rx rx' s s' : ℕ} (htx : tx < T) (htx' : tx' < T)
    (hrx : rx < R) (hrx' : rx' < R) (hs : s < M) (hs' : s' < M)
    (h : ia * R * T * M + rx * T * M + tx * M + s =
         ia' * R * T * M + rx' * T * M + tx' * M + s') :
    ia = ia' ∧ rx = rx' ∧ tx = tx' ∧ s = s' := by
  have h1 : ((ia * R + rx) * T + tx) * M + s = ((ia' * R + rx') * T + tx') * M + s' := by
    have e1 : ((ia * R + rx) * T + tx) * M + s =
        ia * R * T * M + rx * T * M + tx * M + s := by ring
    have e2 : ((ia' * R + rx') * T + tx') * M + s' =
        ia' * R * T * M + rx' * T * M + tx' * M + s' := by ring
    rw [e1, e2]
    exact h
  obtain ⟨h2, h3⟩ := digit_inj hs hs' h1
  obtain ⟨h4, h5⟩ := digit_inj htx htx' h2
  obtain ⟨h6, h7⟩ := digit_inj hrx hrx' h4
  exact ⟨h6, h7, h5, h3⟩

theorem linkIndex_inj {T rx rx' tx tx' : ℕ} (htx : tx < T) (htx' : tx' < T)
    (h : linkIndex T rx tx = linkIndex T rx' tx') : rx = rx' ∧ tx = tx' :=
  digit_inj htx htx' h

/-! ## Counting the records of a class and link -/

theorem remCount_cons (r : SRec) (l : List SRec) (t rx tx : ℕ) :
    remCount (r :: l) t rx tx =
      remCount l t rx tx + if r.t = t ∧ r.rxID = rx ∧ r.txID = tx then 1 else 0 := by
  rw [remCount, List.countP_cons, remCount]
  congr 1
  by_cases h : r.t = t ∧ r.rxID = rx ∧ r.txID = tx <;> simp [h]

theorem remCount_cons_self (r : SRec) (l : List SRec) :
    remCount (r :: l) r.t r.rxID r.txID = remCount l r.t r.rxID r.txID + 1 := by
  rw [remCount_cons, if_pos ⟨rfl, rfl, rfl⟩]

theorem remCount_cons_le (r : SRec) (l : List SRec) (t rx tx : ℕ) :
    remCount l t rx tx ≤ remCount (r :: l) t rx tx := by
  rw [remCount_cons]
  omega

theorem remCount_nil (t rx tx : ℕ) : remCount [] t rx tx = 0 := rfl

/-! ## Frame lemmas for one export step -/

theorem foldl_pres {α β γ : Type} (g : α → γ) (f : α → β → α) (l : List β) (a : α)
    (h : ∀ a' b, b ∈ l → g (f a' b) = g a') : g (l.foldl f a) = g a := by
  induction l generalizing a with
  | nil => rfl
  | cons b t ih =>
    rw [List.foldl_cons, ih _ (fun a' b' hb' => h a' b' (List.mem_cons_of_mem _ hb'))]
    exact h a b (List.mem_cons_self _ _)

theorem iaLoop_mask (ctx : ExpCtx) (r : SRec) (off : ℕ) (l : List ℕ) (cd : SClass) :
    (l.foldl (iaStep ctx r off) cd).mask = cd.mask :=
  foldl_pres SClass.mask _ l cd (fun _ _ _ => rfl)

theorem iaLoop_kTx (ctx : ExpCtx) (r : SRec) (off : ℕ) (l : List ℕ) (cd : SClass) :
    (l.foldl (iaStep ctx r off) cd).kTx = cd.kTx :=
  foldl_pres SClass.kTx _ l cd (fun _ _ _ => rfl)

theorem iaLoop_kRx (ctx : ExpCtx) (r : SRec) (off : ℕ) (l : List ℕ) (cd : SClass) :
    (l.foldl (iaStep ctx r off) cd).kRx = cd.kRx :=
  foldl_pres SClass.kRx _ l cd (fun _ _ _ => rfl)

theorem iaLoop_incident_outside (ctx : ExpCtx) (r : SRec) (off : ℕ) (l : List ℕ)
    (cd : SClass) (idx : ℕ) (h : ∀ ia ∈ l, idx ≠ iaIdxOf ctx r off ia) :
    (l.foldl (iaStep ctx r off) cd).incidentRays idx = cd.incidentRays idx := by
  induction l generalizing cd with
  | nil => rfl
  | cons b t ih =>
    rw [List.foldl_cons, ih _ (fun ia hia => h ia (List.mem_cons_of_mem _ hia))]
    show upd cd.incidentRays (iaIdxOf ctx r off b) _ idx = _
    exact upd_ne _ _ _ (h b (List.mem_cons_self _ _))

theorem stepClass_mask (ctx : ExpCtx) (st : ExpState) (r : SRec) :
    (stepClass ctx st r).mask =
      upd (st.paths r.t).mask (pdiOf ctx r (offOf ctx st r)) 1 := by
  show upd ((List.range ctx.maxIa).foldl (iaStep ctx r (offOf ctx st r)) (st.paths r.t)).mask
    (pdiOf ctx r (offOf ctx st r)) 1 = _
  rw [iaLoop_mask]

theorem stepClass_kTx (ctx : ExpCtx) (st : ExpState) (r : SRec) :
    (stepClass ctx st r).kTx =
      upd (st.paths r.t).kTx (pdiOf ctx r (offOf ctx st r)) (kTxOf ctx r) := by
  show upd ((List.range ctx.maxIa).foldl (iaStep ctx r (offOf ctx st r)) (st.paths r.t)).kTx
    (pdiOf ctx r (offOf ctx st r)) (kTxOf ctx r) = _
  rw [iaLoop_kTx]

theorem stepClass_kRx (ctx : ExpCtx) (st : ExpState) (r : SRec) :
    (stepClass ctx st r).kRx =
      upd (st.paths r.t).kRx (pdiOf ctx r (offOf ctx st r)) (kRxOf ctx r) := by
  show upd ((List.range ctx.maxIa).foldl (iaStep ctx r (offOf ctx st r)) (st.paths r.t)).kRx
    (pdiOf ctx r (offOf ctx st r)) (kRxOf ctx r) = _
  rw [iaLoop_kRx]

theorem stepClass_incident (ctx : ExpCtx) (st : ExpState) (r : SRec) :
    (stepClass ctx st r).incidentRays =
      upd ((List.range ctx.maxIa).foldl (iaStep ctx r (offOf ctx st r))
          (st.paths r.t)).incidentRays
        (iaIdxOf ctx r (offOf ctx st r) r.n) (-(kRxOf ctx r)) := by
  have h : (stepClass ctx st r).incidentRays =
      upd ((List.range ctx.maxIa).foldl (iaStep ctx r (offOf ctx st r))
          (st.paths r.t)).incidentRays
        (iaIdxOf ctx r (offOf ctx st r) r.n)
        (-(upd ((List.range ctx.maxIa).foldl (iaStep ctx r (offOf ctx st r))
            (st.paths r.t)).kRx (pdiOf ctx r (offOf ctx st r)) (kRxOf ctx r)
          (pdiOf ctx r (offOf ctx st r)))) := rfl
  rw [h, upd_same]

theorem sStep_paths_eq (ctx : ExpCtx) (st : ExpState) (r : SRec) :
    (sStep ctx st r).paths = upd st.paths r.t (stepClass ctx st r) := rfl

theorem sStep_counters_eq (ctx : ExpCtx) (st : ExpState) (r : SRec) :
    (sStep ctx st r).counters =
      upd2 st.counters (linkIndex ctx.T r.rxID r.txID) r.t (offOf ctx st r) := rfl

/-! ## The counter invariant along the export loop -/

/-- Well-formedness of one record relative to the export context: in-range
endpoint IDs and an interaction count within the slot bound. -/
def wfRec (ctx : ExpCtx) (r : SRec) : Prop :=
  r.txID < ctx.T ∧ r.rxID < ctx.R ∧ r.n ≤ ctx.maxIa

/-- The remaining-count invariant: every in-range per-link counter holds the
number of yet-to-be-processed records of its link and class. -/
def countersMatch (ctx : ExpCtx) (l : List SRec) (st : ExpState) : Prop :=
  ∀ t rx tx, rx < ctx.R → tx < ctx.T →
    st.counters (linkIndex ctx.T rx tx) t = remCount l t rx tx

theorem countersMatch_step (ctx : ExpCtx) (r : SRec) (l : List SRec) (st : ExpState)
    (hwf : wfRec ctx r) (hc : countersMatch ctx (r :: l) st) :
    countersMatch ctx l (sStep ctx st r) ∧
      offOf ctx st r = remCount l r.t r.rxID r.txID := by
  have hcnt := hc r.t r.rxID r.txID hwf.2.1 hwf.1
  have hoff : offOf ctx st r = remCount l r.t r.rxID r.txID := by
    rw [offOf, hcnt, remCount_cons_self, decWrap_succ]
  refine ⟨?_, hoff⟩
  intro t rx tx hrx htx
  rw [sStep_counters_eq]
  by_cases hcell : linkIndex ctx.T rx tx = linkIndex ctx.T r.rxID r.txID ∧ t = r.t
  · obtain ⟨h1, h2⟩ := hcell
    obtain ⟨hrxe, htxe⟩ := linkIndex_inj htx hwf.1 h1
    subst hrxe
    subst htxe
    subst h2
    rw [upd2_same]
    exact hoff
  · rw [upd2_ne _ _ _ _ hcell]
    rw [hc t rx tx hrx htx, remCount_cons, if_neg]
    · omega
    · rintro ⟨e1, e2, e3⟩
      exact hcell ⟨by rw [e2, e3], e1.symm⟩

theorem sStep_pp_frame (ctx : ExpCtx) (st : ExpState) (r : SRec) (t idx : ℕ)
    (h : t = r.t → idx ≠ pdiOf ctx r (offOf ctx st r)) :
    ((sStep ctx st r).paths t).mask idx = (st.paths t).mask idx ∧
    ((sStep ctx st r).paths t).kTx idx = (st.paths t).kTx idx ∧
    ((sStep ctx st r).paths t).kRx idx = (st.paths t).kRx idx := by
  rw [sStep_paths_eq]
  by_cases ht : t = r.t
  · subst ht
    rw [upd_same]
    rw [stepClass_mask, stepClass_kTx, stepClass_kRx]
    exact ⟨upd_ne _ _ _ (h rfl), upd_ne _ _ _ (h rfl), upd_ne _ _ _ (h rfl)⟩
  · rw [upd_ne _ _ _ ht]
    exact ⟨rfl, rfl, rfl⟩

theorem sStep_incident_frame (ctx : ExpCtx) (st : ExpState) (r : SRec) (t idx : ℕ)
    (hn : r.n ≤ ctx.maxIa)
    (h : t = r.t → ∀ ia, ia ≤ ctx.maxIa → idx ≠ iaIdxOf ctx r (offOf ctx st r) ia) :
    ((sStep ctx st r).paths t).incidentRays idx = (st.paths t).incidentRays idx := by
  rw [sStep_paths_eq]
  by_cases ht : t = r.t
  · subst ht
    rw [upd_same]
    rw [stepClass_incident]
    rw [upd_ne _ _ _ (h rfl r.n hn)]
    exact iaLoop_incident_outside ctx r _ _ _ idx
      (fun ia hia => h rfl ia (le_of_lt (List.mem_range.mp hia)))
  · rw [upd_ne _ _ _ ht]

/-- Frame lemma over the whole export loop: per-path cells outside the write
region of the remaining records are untouched. -/
theorem exp_untouched_pp (ctx : ExpCtx) (l : List SRec) (st : ExpState)
    (hwf : ∀ r ∈ l, wfRec ctx r)
    (hc : countersMatch ctx l st)
    (hM : ∀ t rx tx, remCount l t rx tx ≤ ctx.MLP t)
    (t idx : ℕ)
    (hout : ∀ rx tx s, rx < ctx.R → tx < ctx.T → s < remCount l t rx tx →
      idx ≠ tx * ctx.MLP t + rx * ctx.T * ctx.MLP t + s) :
    ((l.foldl (sStep ctx) st).paths t).mask idx = (st.paths t).mask idx ∧
    ((l.foldl (sStep ctx) st).paths t).kTx idx = (st.paths t).kTx idx ∧
    ((l.foldl (sStep ctx) st).paths t).kRx idx = (st.paths t).kRx idx := by
  induction l generalizing st with
  | nil => exact ⟨rfl, rfl, rfl⟩
  | cons r tl ih =>
    have hwfr : wfRec ctx r := hwf r (List.mem_cons_self _ _)
    obtain ⟨hc', hoff⟩ := countersMatch_step ctx r tl st hwfr hc
    have hwf' : ∀ r' ∈ tl, wfRec ctx r' := fun r' h' => hwf r' (List.mem_cons_of_mem _ h')
    have hM' : ∀ t' rx tx, remCount tl t' rx tx ≤ ctx.MLP t' := fun t' rx tx =>
      le_trans (remCount_cons_le _ _ _ _ _) (hM t' rx tx)
    have hout' : ∀ rx tx s, rx < ctx.R → tx < ctx.T → s < remCount tl t rx tx →
        idx ≠ tx * ctx.MLP t + rx * ctx.T * ctx.MLP t + s :=
      fun rx tx s h1 h2 h3 =>
        hout rx tx s h1 h2 (lt_of_lt_of_le h3 (remCount_cons_le _ _ _ _ _))
    rw [List.foldl_cons]
    obtain ⟨hm, hktx, hkrx⟩ := ih (sStep ctx st r) hwf' hc' hM' hout'
    have hframe := sStep_pp_frame ctx st r t idx (by
      intro ht heq
      subst ht
      rw [hoff] at heq
      refine hout r.rxID r.txID (remCount tl r.t r.rxID r.txID) hwfr.2.1 hwfr.1 ?_ heq
      rw [remCount_cons_self]
      omega)
    exact ⟨hm.trans hframe.1, hktx.trans hframe.2.1, hkrx.trans hframe.2.2⟩

/-- Frame lemma over the whole export loop for the incident-ray buffer. -/
theorem exp_untouched_incident (ctx : ExpCtx) (l : List SRec) (st : ExpState)
    (hwf : ∀ r ∈ l, wfRec ctx r)
    (hc : countersMatch ctx l st)
    (hM : ∀ t rx tx, remCount l t rx tx ≤ ctx.MLP t)
    (t idx : ℕ)
    (hout : ∀ ia rx tx s, ia ≤ ctx.maxIa → rx < ctx.R → tx < ctx.T →
      s < remCount l t rx tx →
      idx ≠ ia * ctx.R * ctx.T * ctx.MLP t + rx * ctx.T * ctx.MLP t + tx * ctx.MLP t + s) :
    ((l.foldl (sStep ctx) st).paths t).incidentRays idx = (st.paths t).incidentRays idx := by
  induction l generalizing st with
  | nil => rfl
  | cons r tl ih =>
    have hwfr : wfRec ctx r := hwf r (List.mem_cons_self _ _)
    obtain ⟨hc', hoff⟩ := countersMatch_step ctx r tl st hwfr hc
    have hwf' : ∀ r' ∈ tl, wfRec ctx r' := fun r' h' => hwf r' (List.mem_cons_of_mem _ h')
    have hM' : ∀ t' rx tx, remCount tl t' rx tx ≤ ctx.MLP t' := fun t' rx tx =>
      le_trans (remCount_cons_le _ _ _ _ _) (hM t' rx tx)
    have hout' : ∀ ia rx tx s, ia ≤ ctx.maxIa → rx < ctx.R → tx < ctx.T →
        s < remCount tl t rx tx →
        idx ≠ ia * ctx.R * ctx.T * ctx.MLP t + rx * ctx.T * ctx.MLP t + tx * ctx.MLP t + s :=
      fun ia rx tx s h0 h1 h2 h3 =>
        hout ia rx tx s h0 h1 h2 (lt_of_lt_of_le h3 (remCount_cons_le _ _ _ _ _))
    rw [List.foldl_cons]
    have hrest := ih (sStep ctx st r) hwf' hc' hM' hout'
    rw [hrest]
    apply sStep_incident_frame ctx st r t idx hwfr.2.2
    intro ht ia hia
    subst ht
    rw [hoff]
    intro heq
    exact hout ia r.rxID r.txID (remCount tl r.t r.rxID r.txID) hia hwfr.2.1 hwfr.1
      (by rw [remCount_cons_self]; omega) heq

theorem exp_counters_zero (ctx : ExpCtx) (l : List SRec) (st : ExpState)
    (hwf : ∀ r ∈ l, wfRec ctx r)
    (hc : countersMatch ctx l st)
    (h0 : ∀ ℓ t, (∀ rx tx, rx < ctx.R → tx < ctx.T → ℓ ≠ linkIndex ctx.T rx tx) →
      st.counters ℓ t = 0) :
    ∀ ℓ t, (l.foldl (sStep ctx) st).counters ℓ t = 0 := by
  induction l generalizing st with
  | nil =>
    intro ℓ t
    by_cases hd : ∃ rx tx, rx < ctx.R ∧ tx < ctx.T ∧ ℓ = linkIndex ctx.T rx tx
    · obtain ⟨rx, tx, h1, h2, h3⟩ := hd
      subst h3
      show st.counters (linkIndex ctx.T rx tx) t = 0
      rw [hc t rx tx h1 h2]
      rfl
    · exact h0 ℓ t (fun rx tx h1 h2 hEq => hd ⟨rx, tx, h1, h2, hEq⟩)
  | cons r tl ih =>
    intro ℓ t
    have hwfr : wfRec ctx r := hwf r (List.mem_cons_self _ _)
    obtain ⟨hc', _⟩ := countersMatch_step ctx r tl st hwfr hc
    rw [List.foldl_cons]
    apply ih (sStep ctx st r) (fun r' h' => hwf r' (List.mem_cons_of_mem _ h')) hc'
    intro ℓ' t' hnl
    rw [sStep_counters_eq, upd2_ne]
    · exact h0 ℓ' t' hnl
    · intro hcell
      exact hnl r.rxID r.txID hwfr.2.1 hwfr.1 hcell.1

/-- Every slot below the remaining count of its link and class receives
mask 1 during the export loop. -/
theorem exp_mask_one (ctx : ExpCtx) (l : List SRec) (st : ExpState)
    (hwf : ∀ r ∈ l, wfRec ctx r)
    (hc : countersMatch ctx l st)
    (hM : ∀ t rx tx, remCount l t rx tx ≤ ctx.MLP t) :
    ∀ t rx tx s, rx < ctx.R → tx < ctx.T → s < remCount l t rx tx →
      ((l.foldl (sStep ctx) st).paths t).mask
        (tx * ctx.MLP t + rx * ctx.T * ctx.MLP t + s) = 1 := by
  induction l generalizing st with
  | nil =>
    intro t rx tx s _ _ hs
    rw [remCount_nil] at hs
    omega
  | cons r tl ih =>
    intro t rx tx s hrx htx hs
    have hwfr : wfRec ctx r := hwf r (List.mem_cons_self _ _)
    obtain ⟨hc', hoff⟩ := countersMatch_step ctx r tl st hwfr hc
    have hwf' : ∀ r' ∈ tl, wfRec ctx r' := fun r' h' => hwf r' (List.mem_cons_of_mem _ h')
    have hM' : ∀ t' rx' tx', remCount tl t' rx' tx' ≤ ctx.MLP t' := fun t' rx' tx' =>
      le_trans (remCount_cons_le _ _ _ _ _) (hM t' rx' tx')
    rw [List.foldl_cons]
    by_cases hhead : r.t = t ∧ r.rxID = rx ∧ r.txID = tx ∧ s = remCount tl t rx tx
    · obtain ⟨h1, h2, h3, h4⟩ := hhead
      subst h1
      subst h2
      subst h3
      subst h4
      have hsM : remCount tl r.t r.rxID r.txID < ctx.MLP r.t := by
        have := hM r.t r.rxID r.txID
        rw [remCount_cons_self] at this
        omega
      have hunt := exp_untouched_pp ctx tl (sStep ctx st r) hwf' hc' hM' r.t
        (r.txID * ctx.MLP r.t + r.rxID * ctx.T * ctx.MLP r.t + remCount tl r.t r.rxID r.txID)
        (by
          intro rx' tx' s' hr' ht' hs' heq
          obtain ⟨e1, e2, e3⟩ :=
            pdi_inj hwfr.1 ht' hsM (lt_of_lt_of_le hs' (hM' r.t rx' tx')) heq
          subst e1
          subst e2
          rw [← e3] at hs'
          omega)
      rw [hunt.1, sStep_paths_eq, upd_same, stepClass_mask, hoff]
      show upd _ (pdiOf ctx r (remCount tl r.t r.rxID r.txID)) 1
        (pdiOf ctx r (remCount tl r.t r.rxID r.txID)) = 1
      exact upd_same _ _ _
    · have hs' : s < remCount tl t rx tx := by
        rw [remCount_cons] at hs
        by_cases hm2 : r.t = t ∧ r.rxID = rx ∧ r.txID = tx
        · rw [if_pos hm2] at hs
          have hne : s ≠ remCount tl t rx tx := fun hc4 =>
            hhead ⟨hm2.1, hm2.2.1, hm2.2.2, hc4⟩
          omega
        · rw [if_neg hm2] at hs
          omega
      exact ih (sStep ctx st r) hwf' hc' hM' t rx tx s hrx htx hs'

/-- Survival of one record's per-path and incident-to-receiver writes through
the rest of the export loop: the record at position `|pre|` lands its `kTx`,
`kRx` and incident-to-receiver values at its slot offset (the number of later
records sharing its link and class), and they are still there at the end. -/
theorem exp_survive (ctx : ExpCtx) (l : List SRec) (st : ExpState)
    (hwf : ∀ r ∈ l, wfRec ctx r)
    (hc : countersMatch ctx l st)
    (hM : ∀ t rx tx, remCount l t rx tx ≤ ctx.MLP t)
    (pre : List SRec) (r : SRec) (post : List SRec) (hsplit : l = pre ++ r :: post) :
    ((l.foldl (sStep ctx) st).paths r.t).kTx
        (pdiOf ctx r (remCount post r.t r.rxID r.txID)) = kTxOf ctx r ∧
    ((l.foldl (sStep ctx) st).paths r.t).kRx
        (pdiOf ctx r (remCount post r.t r.rxID r.txID)) = kRxOf ctx r ∧
    ((l.foldl (sStep ctx) st).paths r.t).incidentRays
        (iaIdxOf ctx r (remCount post r.t r.rxID r.txID) r.n) = -(kRxOf ctx r) := by
  subst hsplit
  induction pre generalizing st with
  | nil =>
    simp only [List.nil_append]
    have hwfr : wfRec ctx r := hwf r (List.mem_cons_self _ _)
    obtain ⟨hc', hoff⟩ := countersMatch_step ctx r post st hwfr hc
    have hwf' : ∀ r' ∈ post, wfRec ctx r' := fun r' h' => hwf r' (List.mem_cons_of_mem _ h')
    have hM' : ∀ t' rx' tx', remCount post t' rx' tx' ≤ ctx.MLP t' := fun t' rx' tx' =>
      le_trans (remCount_cons_le _ _ _ _ _) (hM t' rx' tx')
    have hsM : remCount post r.t r.rxID r.txID < ctx.MLP r.t := by
      have := hM r.t r.rxID r.txID
      simp only [List.nil_append] at this
      rw [remCount_cons_self] at this
      omega
    rw [List.foldl_cons]
    have hunt := exp_untouched_pp ctx post (sStep ctx st r) hwf' hc' hM' r.t
      (pdiOf ctx r (remCount post r.t r.rxID r.txID))
      (by
        intro rx' tx' s' hr' ht' hs' heq
        obtain ⟨e1, e2, e3⟩ :=
          pdi_inj hwfr.1 ht' hsM (lt_of_lt_of_le hs' (hM' r.t rx' tx')) heq
        subst e1
        subst e2
        rw [← e3] at hs'
        omega)
    have hunti := exp_untouched_incident ctx post (sStep ctx st r) hwf' hc' hM' r.t
      (iaIdxOf ctx r (remCount post r.t r.rxID r.txID) r.n)
      (by
        intro ia' rx' tx' s' hia' hr' ht' hs' heq
        obtain ⟨e0, e1, e2, e3⟩ := ia4_inj hwfr.1 ht' hwfr.2.1 hr' hsM
          (lt_of_lt_of_le hs' (hM' r.t rx' tx')) heq
        subst e1
        subst e2
        rw [← e3] at hs'
        omega)
    refine ⟨?_, ?_, ?_⟩
    · rw [hunt.2.1, sStep_paths_eq, upd_same, stepClass_kTx, hoff]
      exact upd_same _ _ _
    · rw [hunt.2.2, sStep_paths_eq, upd_same, stepClass_kRx, hoff]
      exact upd_same _ _ _
    · rw [hunti, sStep_paths_eq, upd_same, stepClass_incident, hoff]
      exact upd_same _ _ _
  | cons p pre' ih =>
    have hwfp : wfRec ctx p := hwf p (by simp)
    obtain ⟨hc', _⟩ := countersMatch_step ctx p (pre' ++ r :: post) st hwfp hc
    have hwf' : ∀ r' ∈ pre' ++ r :: post, wfRec ctx r' := fun r' h' =>
      hwf r' (by rw [List.cons_append]; exact List.mem_cons_of_mem _ h')
    have hM' : ∀ t' rx' tx', remCount (pre' ++ r :: post) t' rx' tx' ≤ ctx.MLP t' :=
      fun t' rx' tx' => le_trans (remCount_cons_le _ _ _ _ _) (hM t' rx' tx')
    rw [show (p :: pre') ++ r :: post = p :: (pre' ++ r :: post) from rfl, List.foldl_cons]
    exact ih (sStep ctx st p) hwf' hc' hM'

/-! ## Bridging the aggregation invariant to the export loop -/

theorem stored_wf {hm : HashModel} {mi : ℕ} {txs rxs : List Vec3} {cs : List Candidate}
    {s : Store} (hs : StoreOk hm mi txs rxs cs s)
    (hwf : ∀ c ∈ cs, c.info.txID < txs.length ∧ c.info.rxID < rxs.length ∧
      c.info.numInteractions ≤ mi) :
    ∀ i, i < s.txIDs.length →
      s.txIDs.getD i 0 < txs.length ∧ s.rxIDs.getD i 0 < rxs.length ∧
      s.numInteractions.getD i 0 ≤ mi := by
  intro i hi
  rw [hs.lenTx] at hi
  have hp : s.pathMap[i]? = some (s.pathMap[i]) := List.getElem?_eq_getElem hi
  have hfind := mapFind_getElem _ hs.keysNodup i _ hp
  have hpi := hs.posIdx i _ hp
  have hsome : ∃ c₁,
      cs.find? (fun c' => decide (keyOf hm c' = (s.pathMap[i]).1)) = some c₁ := by
    rw [← Option.isSome_iff_exists, List.find?_isSome]
    obtain ⟨c₁, hc₁, hk₁⟩ := List.mem_map.mp ((hs.memKeys _).mp ⟨_, hfind⟩)
    exact ⟨c₁, hc₁, by simp [hk₁]⟩
  obtain ⟨c₁, hc₁⟩ := hsome
  obtain ⟨ha, hb, _⟩ := hs.scFirst _ _ hfind c₁ hc₁
  obtain ⟨c₂, hc₂, _, hn₂⟩ := hs.nFrom _ _ hfind
  rw [hpi] at ha hb hn₂
  have h₁ := hwf c₁ (List.mem_of_find?_eq_some hc₁)
  have h₂ := hwf c₂ hc₂
  exact ⟨by rw [ha]; exact h₁.1, by rw [hb]; exact h₁.2.1, by rw [hn₂]; exact h₂.2.2⟩

theorem records_length (s : Store) : (records s).length = s.txIDs.length := by
  rw [records, List.length_map, List.length_range]

theorem records_wf {hm : HashModel} {mi : ℕ} {txs rxs : List Vec3} {cs : List Candidate}
    {s : Store} (hs : StoreOk hm mi txs rxs cs s)
    (hwf : ∀ c ∈ cs, c.info.txID < txs.length ∧ c.info.rxID < rxs.length ∧
      c.info.numInteractions ≤ mi)
    (ctx : ExpCtx) (hT : ctx.T = s.transmitters.length) (hR : ctx.R = s.receivers.length)
    (hIa : ctx.maxIa = s.maxNumIa) :
    ∀ r ∈ records s, wfRec ctx r := by
  intro r hr
  rw [records] at hr
  obtain ⟨i, hi, rfl⟩ := List.mem_map.mp hr
  rw [List.mem_range] at hi
  obtain ⟨h1, h2, h3⟩ := stored_wf hs hwf i hi
  refine ⟨?_, ?_, ?_⟩
  · show s.txIDs.getD i 0 < ctx.T
    rw [hT, hs.tx_eq]
    exact h1
  · show s.rxIDs.getD i 0 < ctx.R
    rw [hR, hs.rx_eq]
    exact h2
  · show s.numInteractions.getD i 0 ≤ ctx.maxIa
    rw [hIa, hs.maxIa_eq]
    exact h3

theorem remCount_records {hm : HashModel} {mi : ℕ} {txs rxs : List Vec3} {cs : List Candidate}
    {s : Store} (hs : StoreOk hm mi txs rxs cs s)
    (hwf : ∀ c ∈ cs, c.info.txID < txs.length ∧ c.info.rxID < rxs.length ∧
      c.info.numInteractions ≤ mi)
    (t rx tx : ℕ) (htx : tx < s.transmitters.length) :
    remCount (records s) t rx tx = countStored s (linkIndex s.transmitters.length rx tx) t := by
  rw [remCount, records, List.countP_map, countStored]
  apply List.countP_congr
  intro i hi
  rw [List.mem_range] at hi
  have h1 : s.txIDs.getD i 0 < s.transmitters.length := by
    rw [hs.tx_eq]
    exact (stored_wf hs hwf i hi).1
  simp only [Function.comp_apply, decide_eq_true_eq, recordAt]
  constructor
  · rintro ⟨ha, hb, hc'⟩
    exact ⟨by rw [hb, hc'], ha⟩
  · rintro ⟨ha, hb⟩
    obtain ⟨e1, e2⟩ := linkIndex_inj h1 htx ha
    exact ⟨hb, e1, e2⟩

theorem remCount_records_zero {hm : HashModel} {mi : ℕ} {txs rxs : List Vec3}
    {cs : List Candidate} {s : Store} (hs : StoreOk hm mi txs rxs cs s)
    (hwf : ∀ c ∈ cs, c.info.txID < txs.length ∧ c.info.rxID < rxs.length ∧
      c.info.numInteractions ≤ mi)
    (t rx tx : ℕ) (htx : s.transmitters.length ≤ tx) :
    remCount (records s) t rx tx = 0 := by
  rw [remCount, records, List.countP_map, List.countP_eq_zero]
  intro i hi
  rw [List.mem_range] at hi
  have h1 : s.txIDs.getD i 0 < s.transmitters.length := by
    rw [hs.tx_eq]
    exact (stored_wf hs hwf i hi).1
  simp only [Function.comp_apply, decide_eq_true_eq, recordAt]
  rintro ⟨-, -, hc'⟩
  omega

theorem countStored_nonlink {hm : HashModel} {mi : ℕ} {txs rxs : List Vec3}
    {cs : List Candidate} {s : Store} (hs : StoreOk hm mi txs rxs cs s)
    (hwf : ∀ c ∈ cs, c.info.txID < txs.length ∧ c.info.rxID < rxs.length ∧
      c.info.numInteractions ≤ mi)
    (ℓ t : ℕ)
    (hnl : ∀ rx tx, rx < s.receivers.length → tx < s.transmitters.length →
      ℓ ≠ linkIndex s.transmitters.length rx tx) :
    countStored s ℓ t = 0 := by
  rw [countStored, List.countP_eq_zero]
  intro i hi
  rw [List.mem_range] at hi
  obtain ⟨h1, h2, _⟩ := stored_wf hs hwf i hi
  simp only [decide_eq_true_eq]
  rintro ⟨ha, -⟩
  exact hnl _ _ (by rw [hs.rx_eq]; exact h2) (by rw [hs.tx_eq]; exact h1) ha.symm

theorem retainedLinkCount_eq (s : Store) (t tx rx : ℕ) :
    retainedLinkCount s t tx rx = remCount (records s) t rx tx := by
  rw [retainedLinkCount, remCount, records, List.countP_map]
  apply List.countP_congr
  intro i hi
  simp [recordAt]

/-- C3: after one complete `ToSionnaPathData` run over a store built by any
`AddPaths` sequence of in-range candidates, every per-link per-class counter
has reached exactly 0, and for every (class, transmitter, receiver) triple
with at least one retained path, exactly the top-K link-local slots of that
link's mask array hold 1 — the counter packs offsets K-1 down to 0, so the
slots holding 1 are exactly those below K, the link's retained count. -/
theorem toSionnaPathData_coverage (hm : HashModel) (nf : Vec3 → Vec3) (facos : ℚ → ℚ)
    (fatan2 : ℚ → ℚ → ℚ) (mi : ℕ) (txs rxs : List Vec3) (batches : List (List Candidate))
    (hwf : ∀ c ∈ batches.flatten, c.info.txID < txs.length ∧
      c.info.rxID < rxs.length ∧ c.info.numInteractions ≤ mi) :
    (∀ ℓ t, (toSionnaPathData nf facos fatan2
        (batches.foldl (addPaths hm) (mkStore mi txs rxs))).2.pathCounts ℓ t = 0) ∧
    (∀ t tx rx,
      tx < txs.length → rx < rxs.length →
      1 ≤ retainedLinkCount (batches.foldl (addPaths hm) (mkStore mi txs rxs)) t tx rx →
      ∀ sl, sl < (batches.foldl (addPaths hm) (mkStore mi txs rxs)).maxLinkPaths t →
      ((toSionnaPathData nf facos fatan2
          (batches.foldl (addPaths hm) (mkStore mi txs rxs))).1.paths t).mask
        (tx * (batches.foldl (addPaths hm) (mkStore mi txs rxs)).maxLinkPaths t +
          rx * txs.length * (batches.foldl (addPaths hm) (mkStore mi txs rxs)).maxLinkPaths t +
          sl) =
      if sl < retainedLinkCount (batches.foldl (addPaths hm) (mkStore mi txs rxs)) t tx rx
      then 1 else 0) := by
  rw [foldl_addPaths_flatten]
  have hs := storeOk_run hm mi txs rxs batches.flatten
  set S := addPaths hm (mkStore mi txs rxs) batches.flatten with hSdef
  have hT : txs.length = S.transmitters.length := by rw [hs.tx_eq]
  have hR : rxs.length = S.receivers.length := by rw [hs.rx_eq]
  have hrwf := records_wf hs hwf
    (⟨S.transmitters.length, S.receivers.length, S.maxNumIa, S.maxLinkPaths,
      nf, facos, fatan2⟩ : ExpCtx) rfl rfl rfl
  have hc0 : countersMatch (⟨S.transmitters.length, S.receivers.length, S.maxNumIa,
      S.maxLinkPaths, nf, facos, fatan2⟩ : ExpCtx) (records S)
      ⟨fun _ => initClass, S.pathCounts⟩ := by
    intro t rx tx hrx htx
    show S.pathCounts (linkIndex S.transmitters.length rx tx) t = remCount (records S) t rx tx
    rw [hs.counts, remCount_records hs hwf t rx tx htx]
  have hM0 : ∀ t rx tx, remCount (records S) t rx tx ≤ S.maxLinkPaths t := by
    intro t rx tx
    by_cases htx : tx < S.transmitters.length
    · rw [remCount_records hs hwf t rx tx htx, ← hs.counts]
      exact hs.maxOk _ t
    · rw [remCount_records_zero hs hwf t rx tx (by omega)]
      omega
  constructor
  · intro ℓ t
    show ((records S).foldl (sStep ⟨S.transmitters.length, S.receivers.length, S.maxNumIa,
        S.maxLinkPaths, nf, facos, fatan2⟩) ⟨fun _ => initClass, S.pathCounts⟩).counters ℓ t = 0
    apply exp_counters_zero _ _ _ hrwf hc0
    intro ℓ' t' hnl
    show S.pathCounts ℓ' t' = 0
    rw [hs.counts]
    exact countStored_nonlink hs hwf ℓ' t' hnl
  · intro t tx rx htx hrx hK sl hsl
    rw [hT] at htx
    rw [hR] at hrx
    rw [retainedLinkCount_eq]
    rw [hT]
    show (((records S).foldl (sStep ⟨S.transmitters.length, S.receivers.length, S.maxNumIa,
        S.maxLinkPaths, nf, facos, fatan2⟩) ⟨fun _ => initClass, S.pathCounts⟩).paths t).mask
        (tx * S.maxLinkPaths t + rx * S.transmitters.length * S.maxLinkPaths t + sl) =
      (if sl < remCount (records S) t rx tx then 1 else 0)
    by_cases hcase : sl < remCount (records S) t rx tx
    · rw [if_pos hcase]
      exact exp_mask_one _ (records S) _ hrwf hc0 hM0 t rx tx sl hrx htx hcase
    · rw [if_neg hcase]
      have hunt := exp_untouched_pp
        (⟨S.transmitters.length, S.receivers.length, S.maxNumIa, S.maxLinkPaths,
          nf, facos, fatan2⟩ : ExpCtx) (records S) ⟨fun _ => initClass, S.pathCounts⟩
        hrwf hc0 hM0 t
        (tx * S.maxLinkPaths t + rx * S.transmitters.length * S.maxLinkPaths t + sl)
        (by
          intro rx' tx' s' hr' ht' hs' heq
          obtain ⟨e1, e2, e3⟩ := pdi_inj htx ht' hsl
            (lt_of_lt_of_le hs' (hM0 t rx' tx')) heq
          subst e1
          subst e2
          subst e3
          exact hcase hs')
      rw [hunt.1]
      rfl

/-- C3 witness: one line-of-sight-free specular path on the single link of a
1-transmitter, 1-receiver scene: afterwards every counter is 0 and the mask
region of the link holds 1 exactly below its count. -/
theorem toSionnaPathData_coverage_witness :
    (∀ ℓ t, (toSionnaPathData id id (fun a _ => a)
        ([[candB]].foldl (addPaths hmSum) (mkStore 1 [v3zero] [v3zero]))).2.pathCounts ℓ t = 0) ∧
    (∀ t tx rx,
      tx < [v3zero].length → rx < [v3zero].length →
      1 ≤ retainedLinkCount ([[candB]].foldl (addPaths hmSum) (mkStore 1 [v3zero] [v3zero])) t tx rx →
      ∀ sl, sl < ([[candB]].foldl (addPaths hmSum) (mkStore 1 [v3zero] [v3zero])).maxLinkPaths t →
      ((toSionnaPathData id id (fun a _ => a)
          ([[candB]].foldl (addPaths hmSum) (mkStore 1 [v3zero] [v3zero]))).1.paths t).mask
        (tx * ([[candB]].foldl (addPaths hmSum) (mkStore 1 [v3zero] [v3zero])).maxLinkPaths t +
          rx * [v3zero].length *
            ([[candB]].foldl (addPaths hmSum) (mkStore 1 [v3zero] [v3zero])).maxLinkPaths t +
          sl) =
      if sl < retainedLinkCount ([[candB]].foldl (addPaths hmSum)
          (mkStore 1 [v3zero] [v3zero])) t tx rx then 1 else 0) :=
  toSionnaPathData_coverage hmSum id id (fun a _ => a) 1 [v3zero] [v3zero] [[candB]]
    (by decide)

/-- C7: for every retained path whose stored interaction count is 0,
`ToSionnaPathData` writes `kTx = normalize(rx - tx)` and
`kRx = normalize(tx - rx)` at that path's per-path write index, and the
incident-ray-toward-receiver entry `-kRx` lands at interaction-slot index 0
of the (one-slot-larger) incident-ray buffer. -/
theorem toSionnaPathData_los (hm : HashModel) (nf : Vec3 → Vec3) (facos : ℚ → ℚ)
    (fatan2 : ℚ → ℚ → ℚ) (mi : ℕ) (txs rxs : List Vec3) (batches : List (List Candidate))
    (hwf : ∀ c ∈ batches.flatten, c.info.txID < txs.length ∧
      c.info.rxID < rxs.length ∧ c.info.numInteractions ≤ mi)
    (i : ℕ)
    (hi : i < (batches.foldl (addPaths hm) (mkStore mi txs rxs)).txIDs.length)
    (hn : (batches.foldl (addPaths hm) (mkStore mi txs rxs)).numInteractions.getD i 0 = 0) :
    ((toSionnaPathData nf facos fatan2 (batches.foldl (addPaths hm) (mkStore mi txs rxs))).1.paths
        (recordAt (batches.foldl (addPaths hm) (mkStore mi txs rxs)) i).t).kTx
      ((recordAt (batches.foldl (addPaths hm) (mkStore mi txs rxs)) i).txID *
          (batches.foldl (addPaths hm) (mkStore mi txs rxs)).maxLinkPaths
            (recordAt (batches.foldl (addPaths hm) (mkStore mi txs rxs)) i).t +
        (recordAt (batches.foldl (addPaths hm) (mkStore mi txs rxs)) i).rxID * txs.length *
          (batches.foldl (addPaths hm) (mkStore mi txs rxs)).maxLinkPaths
            (recordAt (batches.foldl (addPaths hm) (mkStore mi txs rxs)) i).t +
        exportSlot (batches.foldl (addPaths hm) (mkStore mi txs rxs)) i) =
      nf ((recordAt (batches.foldl (addPaths hm) (mkStore mi txs rxs)) i).rx -
          (recordAt (batches.foldl (addPaths hm) (mkStore mi txs rxs)) i).tx) ∧
    ((toSionnaPathData nf facos fatan2 (batches.foldl (addPaths hm) (mkStore mi txs rxs))).1.paths
        (recordAt (batches.foldl (addPaths hm) (mkStore mi txs rxs)) i).t).kRx
      ((recordAt (batches.foldl (addPaths hm) (mkStore mi txs rxs)) i).txID *
          (batches.foldl (addPaths hm) (mkStore mi txs rxs)).maxLinkPaths
            (recordAt (batches.foldl (addPaths hm) (mkStore mi txs rxs)) i).t +
        (recordAt (batches.foldl (addPaths hm) (mkStore mi txs rxs)) i).rxID * txs.length *
          (batches.foldl (addPaths hm) (mkStore mi txs rxs)).maxLinkPaths
            (recordAt (batches.foldl (addPaths hm) (mkStore mi txs rxs)) i).t +
        exportSlot (batches.foldl (addPaths hm) (mkStore mi txs rxs)) i) =
      nf ((recordAt (batches.foldl (addPaths hm) (mkStore mi txs rxs)) i).tx -
          (recordAt (batches.foldl (addPaths hm) (mkStore mi txs rxs)) i).rx) ∧
    ((toSionnaPathData nf facos fatan2 (batches.foldl (addPaths hm) (mkStore mi txs rxs))).1.paths
        (recordAt (batches.foldl (addPaths hm) (mkStore mi txs rxs)) i).t).incidentRays
      ((recordAt (batches.foldl (addPaths hm) (mkStore mi txs rxs)) i).rxID * txs.length *
          (batches.foldl (addPaths hm) (mkStore mi txs rxs)).maxLinkPaths
            (recordAt (batches.foldl (addPaths hm) (mkStore mi txs rxs)) i).t +
        (recordAt (batches.foldl (addPaths hm) (mkStore mi txs rxs)) i).txID *
          (batches.foldl (addPaths hm) (mkStore mi txs rxs)).maxLinkPaths
            (recordAt (batches.foldl (addPaths hm) (mkStore mi txs rxs)) i).t +
        exportSlot (batches.foldl (addPaths hm) (mkStore mi txs rxs)) i) =
      -(nf ((recordAt (batches.foldl (addPaths hm) (mkStore mi txs rxs)) i).tx -
          (recordAt (batches.foldl (addPaths hm) (mkStore mi txs rxs)) i).rx)) := by
  rw [foldl_addPaths_flatten] at hi hn ⊢
  have hs := storeOk_run hm mi txs rxs batches.flatten
  set S := addPaths hm (mkStore mi txs rxs) batches.flatten with hSdef
  have hT : txs.length = S.transmitters.length := by rw [hs.tx_eq]
  rw [hT]
  have hrwf := records_wf hs hwf
    (⟨S.transmitters.length, S.receivers.length, S.maxNumIa, S.maxLinkPaths,
      nf, facos, fatan2⟩ : ExpCtx) rfl rfl rfl
  have hc0 : countersMatch (⟨S.transmitters.length, S.receivers.length, S.maxNumIa,
      S.maxLinkPaths, nf, facos, fatan2⟩ : ExpCtx) (records S)
      ⟨fun _ => initClass, S.pathCounts⟩ := by
    intro t rx tx hrx htx
    show S.pathCounts (linkIndex S.transmitters.length rx tx) t = remCount (records S) t rx tx
    rw [hs.counts, remCount_records hs hwf t rx tx htx]
  have hM0 : ∀ t rx tx, remCount (records S) t rx tx ≤ S.maxLinkPaths t := by
    intro t rx tx
    by_cases htx : tx < S.transmitters.length
    · rw [remCount_records hs hwf t rx tx htx, ← hs.counts]
      exact hs.maxOk _ t
    · rw [remCount_records_zero hs hwf t rx tx (by omega)]
      omega
  have hlen : i < (records S).length := by rw [records_length]; exact hi
  have hget : (records S)[i] = recordAt S i := by
    have h1 : (records S)[i]? = some (recordAt S i) := by
      rw [records, List.getElem?_map, List.getElem?_range hi]
      rfl
    have h2 : (records S)[i]? = some ((records S)[i]) := List.getElem?_eq_getElem hlen
    rw [h1] at h2
    exact (Option.some.inj h2).symm
  have hsplit : records S = (records S).take i ++ recordAt S i :: (records S).drop (i + 1) := by
    rw [← hget]
    conv_lhs => rw [← List.take_append_drop i (records S)]
    rw [List.drop_eq_getElem_cons hlen]
  have hsur := exp_survive
    (⟨S.transmitters.length, S.receivers.length, S.maxNumIa, S.maxLinkPaths,
      nf, facos, fatan2⟩ : ExpCtx) (records S) ⟨fun _ => initClass, S.pathCounts⟩
    hrwf hc0 hM0 ((records S).take i) (recordAt S i) ((records S).drop (i + 1)) hsplit
  have hrn : (recordAt S i).n = 0 := hn
  have hkTx : kTxOf (⟨S.transmitters.length, S.receivers.length, S.maxNumIa, S.maxLinkPaths,
      nf, facos, fatan2⟩ : ExpCtx) (recordAt S i) =
      nf ((recordAt S i).rx - (recordAt S i).tx) := by
    unfold kTxOf
    rw [if_neg (by rw [hrn]; exact lt_irrefl 0)]
  have hkRx : kRxOf (⟨S.transmitters.length, S.receivers.length, S.maxNumIa, S.maxLinkPaths,
      nf, facos, fatan2⟩ : ExpCtx) (recordAt S i) =
      nf ((recordAt S i).tx - (recordAt S i).rx) := by
    unfold kRxOf
    rw [if_neg (by rw [hrn]; exact lt_irrefl 0)]
  refine ⟨?_, ?_, ?_⟩
  · have h1 := hsur.1
    rw [hkTx] at h1
    exact h1
  · have h2 := hsur.2.1
    rw [hkRx] at h2
    exact h2
  · have h3 := hsur.2.2
    have hidx : iaIdxOf (⟨S.transmitters.length, S.receivers.length, S.maxNumIa,
        S.maxLinkPaths, nf, facos, fatan2⟩ : ExpCtx) (recordAt S i)
        (remCount ((records S).drop (i + 1)) (recordAt S i).t (recordAt S i).rxID
          (recordAt S i).txID) (recordAt S i).n =
        (recordAt S i).rxID * S.transmitters.length * S.maxLinkPaths (recordAt S i).t +
          (recordAt S i).txID * S.maxLinkPaths (recordAt S i).t +
          remCount ((records S).drop (i + 1)) (recordAt S i).t (recordAt S i).rxID
            (recordAt S i).txID := by
      rw [iaIdxOf, hrn]
      ring
    rw [hidx, hkRx] at h3
    exact h3

/-- Receiver position used by the line-of-sight witness scene. -/
def rxUnit : Vec3 := ⟨1, 0, 0⟩

/-- A direct line-of-sight candidate: zero interactions. -/
def candL : Candidate := ⟨⟨0, 0, .LineOfSight, 0, 4⟩, [], [], [], []⟩

/-- The store holding only the line-of-sight path of `candL`. -/
def storeL : Store := addPaths hmSum (mkStore 1 [v3zero] [rxUnit]) [candL]

/-- C7 witness: the single zero-interaction path of `storeL` receives
`kTx = nf (rx - tx)`, `kRx = nf (tx - rx)` and `-kRx` at incident slot 0,
instantiated with `nf = id`. -/
theorem toSionnaPathData_los_witness :
    ((toSionnaPathData id id (fun a _ => a) storeL).1.paths (recordAt storeL 0).t).kTx
      ((recordAt storeL 0).txID * storeL.maxLinkPaths (recordAt storeL 0).t +
        (recordAt storeL 0).rxID * [v3zero].length * storeL.maxLinkPaths (recordAt storeL 0).t +
        exportSlot storeL 0) =
      id ((recordAt storeL 0).rx - (recordAt storeL 0).tx) ∧
    ((toSionnaPathData id id (fun a _ => a) storeL).1.paths (recordAt storeL 0).t).kRx
      ((recordAt storeL 0).txID * storeL.maxLinkPaths (recordAt storeL 0).t +
        (recordAt storeL 0).rxID * [v3zero].length * storeL.maxLinkPaths (recordAt storeL 0).t +
        exportSlot storeL 0) =
      id ((recordAt storeL 0).tx - (recordAt storeL 0).rx) ∧
    ((toSionnaPathData id id (fun a _ => a) storeL).1.paths (recordAt storeL 0).t).incidentRays
      ((recordAt storeL 0).rxID * [v3zero].length * storeL.maxLinkPaths (recordAt storeL 0).t +
        (recordAt storeL 0).txID * storeL.maxLinkPaths (recordAt storeL 0).t +
        exportSlot storeL 0) =
      -(id ((recordAt storeL 0).tx - (recordAt storeL 0).rx)) :=
  toSionnaPathData_los hmSum id id (fun a _ => a) 1 [v3zero] [rxUnit] [[candL]]
    (by decide) 0 (by decide) (by decide)
